import Mathlib

/-!
Shallow embedding of the manifest / virtual-filesystem / link-integrity engine
of the `python-epub3` repository (`epub3/epub.py`, `epub3/util/file.py`,
`epub3/util/remap.py`, `epub3/util/helper.py`).

Python strings are modelled as `List Char` (`Str`), byte strings as `List Nat`
(`Bytes`, each entry `< 256` wherever produced by the model).  Python `dict`s
are modelled as insertion-ordered association lists.  Exceptions are modelled
by returning the state at the raise point together with an `Err` value, so a
failing operation reports exactly the partial mutation the Python code would
have performed.
-/

set_option maxRecDepth 8000

namespace Epub3

abbrev Str := List Char
abbrev Bytes := List Nat

def str (s : String) : Str := s.data

/-! ### `str.strip` / `str.lstrip` with a single strip character -/

/-- Python `s.strip(c)`: remove all leading and trailing occurrences of `c`. -/
def stripChar (c : Char) (s : Str) : Str :=
  ((s.dropWhile (· = c)).reverse.dropWhile (· = c)).reverse

/-- Python `s.lstrip(c)`. -/
def lstripChar (c : Char) (s : Str) : Str := s.dropWhile (· = c)

/-- Python `s.rstrip(c)`. -/
def rstripChar (c : Char) (s : Str) : Str := (s.reverse.dropWhile (· = c)).reverse

/-! ### UTF-8 (used by `urllib.parse.quote`/`unquote` and text-mode I/O) -/

/-- UTF-8 encoding of a single unicode scalar value. -/
def utf8Bytes1 (c : Char) : Bytes :=
  let n := c.toNat
  if n < 128 then [n]
  else if n < 2048 then [192 + n / 64, 128 + n % 64]
  else if n < 65536 then [224 + n / 4096, 128 + n / 64 % 64, 128 + n % 64]
  else [240 + n / 262144, 128 + n / 4096 % 64, 128 + n / 64 % 64, 128 + n % 64]

/-- UTF-8 encoding of a string (Python `s.encode("utf-8")`). -/
def utf8Encode (s : Str) : Bytes := s.flatMap utf8Bytes1

def isCont (b : Nat) : Bool := 128 ≤ b ∧ b < 192

/-- Decode the first scalar of a UTF-8 byte sequence; `none` on malformed
input (overlong forms, surrogates and out-of-range values are rejected, as
Python's strict `utf-8` codec does). -/
def utf8Decode1 : Bytes → Option (Char × Bytes)
  | [] => none
  | b :: bs =>
    if b < 128 then some (Char.ofNat b, bs)
    else if b < 194 then none
    else if b < 224 then
      match bs with
      | b1 :: bs' =>
        if isCont b1 then some (Char.ofNat ((b - 192) * 64 + (b1 - 128)), bs') else none
      | [] => none
    else if b < 240 then
      match bs with
      | b1 :: b2 :: bs' =>
        if isCont b1 ∧ isCont b2 then
          let n := (b - 224) * 4096 + (b1 - 128) * 64 + (b2 - 128)
          if 2048 ≤ n ∧ ¬ (55296 ≤ n ∧ n < 57344) then some (Char.ofNat n, bs') else none
        else none
      | _ => none
    else if b < 245 then
      match bs with
      | b1 :: b2 :: b3 :: bs' =>
        if isCont b1 ∧ isCont b2 ∧ isCont b3 then
          let n := (b - 240) * 262144 + (b1 - 128) * 4096 + (b2 - 128) * 64 + (b3 - 128)
          if 65536 ≤ n ∧ n < 1114112 then some (Char.ofNat n, bs') else none
        else none
      | _ => none
    else none

/-- Strict UTF-8 decoding (Python `bytes.decode("utf-8")`, default strict
errors); `none` on any malformed input.  Fuelled by the input length. -/
def utf8DecodeAux : Nat → Bytes → Option Str
  | _, [] => some []
  | 0, _ :: _ => none
  | fuel + 1, b :: bs =>
    match utf8Decode1 (b :: bs) with
    | none => none
    | some (c, rest) =>
      match utf8DecodeAux fuel rest with
      | none => none
      | some s => some (c :: s)

def utf8Decode (bs : Bytes) : Option Str := utf8DecodeAux bs.length bs

/-- UTF-8 decoding with U+FFFD replacement on errors
(Python `bytes.decode("utf-8", "replace")`, as used by `urllib.parse.unquote`).
On a malformed position one replacement character is emitted and one byte is
skipped; only well-formed sequences are relevant to the theorems below. -/
def utf8DecodeReplaceAux : Nat → Bytes → Str
  | _, [] => []
  | 0, _ :: _ => []
  | fuel + 1, b :: bs =>
    match utf8Decode1 (b :: bs) with
    | some (c, rest) => c :: utf8DecodeReplaceAux fuel rest
    | none => Char.ofNat 65533 :: utf8DecodeReplaceAux fuel bs

def utf8DecodeReplace (bs : Bytes) : Str := utf8DecodeReplaceAux bs.length bs

/-! ### Percent-encoding (`urllib.parse.quote` / `unquote`) -/

def hexDigit (n : Nat) : Char :=
  if n < 10 then Char.ofNat (48 + n) else Char.ofNat (55 + n)

def hexVal (c : Char) : Option Nat :=
  if 48 ≤ c.toNat ∧ c.toNat ≤ 57 then some (c.toNat - 48)
  else if 65 ≤ c.toNat ∧ c.toNat ≤ 70 then some (c.toNat - 55)
  else if 97 ≤ c.toNat ∧ c.toNat ≤ 102 then some (c.toNat - 87)
  else none

/-- `urllib`'s always-safe characters: ASCII letters, digits and `_.-~`. -/
def alwaysSafe (c : Char) : Bool :=
  (65 ≤ c.toNat ∧ c.toNat ≤ 90) ∨ (97 ≤ c.toNat ∧ c.toNat ≤ 122) ∨
  (48 ≤ c.toNat ∧ c.toNat ≤ 57) ∨ c = '_' ∨ c = '.' ∨ c = '-' ∨ c = '~'

/-- The `safe` parameter the repository always passes: `":/?&=#"`. -/
def quoteSafe : Str := str ":/?&=#"

/-- The percent-escape of a single byte, upper-case hex as `urllib` emits. -/
def pctOf (b : Nat) : Str := ['%', hexDigit (b / 16), hexDigit (b % 16)]

def quoteChar (c : Char) : Str :=
  if alwaysSafe c ∨ c ∈ quoteSafe then [c]
  else (utf8Bytes1 c).flatMap pctOf

/-- `urllib.parse.quote(s, safe=":/?&=#")` as used throughout `epub.py` and
`remap.py`. -/
def pquote (s : Str) : Str := s.flatMap quoteChar

/-- Collect the maximal leading run of `%XX` escapes of a string, returning
the decoded bytes together with the remainder. -/
def collectPct : Str → Bytes × Str
  | [] => ([], [])
  | c :: t =>
    if c = '%' then
      match t with
      | c1 :: c2 :: rest =>
        match hexVal c1, hexVal c2 with
        | some h, some l =>
          let p := collectPct rest
          ((16 * h + l) :: p.1, p.2)
        | _, _ => ([], c :: t)
      | _ => ([], c :: t)
    else ([], c :: t)

/-- `urllib.parse.unquote`: each maximal run of `%XX` escapes is decoded as a
UTF-8 byte sequence (with replacement on errors); everything else is passed
through.  Fuelled by the input length. -/
def unquoteAux : Nat → Str → Str
  | _, [] => []
  | 0, _ :: _ => []
  | fuel + 1, c :: rest =>
    if c = '%' then
      match collectPct (c :: rest) with
      | ([], _) => c :: unquoteAux fuel rest
      | (bs, r) => utf8DecodeReplace bs ++ unquoteAux fuel r
    else c :: unquoteAux fuel rest

def punquote (s : Str) : Str := unquoteAux s.length s

/-! ### Round-trip facts about the encoders -/

theorem utf8Decode1_encode (c : Char) (bs : Bytes) :
    utf8Decode1 (utf8Bytes1 c ++ bs) = some (c, bs) := by
  have hv := c.valid
  change c.toNat < 55296 ∨ 57343 < c.toNat ∧ c.toNat < 1114112 at hv
  unfold utf8Bytes1
  by_cases h1 : c.toNat < 128
  · simp only [h1, if_pos, List.cons_append, List.nil_append]
    unfold utf8Decode1
    simp only [h1, if_pos, Char.ofNat_toNat]
  · by_cases h2 : c.toNat < 2048
    · simp only [h1, h2, if_neg, if_pos, not_false_iff, List.cons_append, List.nil_append]
      unfold utf8Decode1
      have b0 : ¬ (192 + c.toNat / 64 < 128) := by omega
      have b1 : ¬ (192 + c.toNat / 64 < 194) := by omega
      have b2 : 192 + c.toNat / 64 < 224 := by omega
      have hc : isCont (128 + c.toNat % 64) = true := by
        simp only [isCont, decide_eq_true_eq]; omega
      simp only [b0, b1, b2, hc, if_neg, if_pos, if_true, not_false_iff]
      have : (192 + c.toNat / 64 - 192) * 64 + (128 + c.toNat % 64 - 128) = c.toNat := by
        omega
      rw [this, Char.ofNat_toNat]
    · by_cases h3 : c.toNat < 65536
      · simp only [h1, h2, h3, if_neg, if_pos, not_false_iff, List.cons_append,
          List.nil_append]
        unfold utf8Decode1
        have b0 : ¬ (224 + c.toNat / 4096 < 128) := by omega
        have b1 : ¬ (224 + c.toNat / 4096 < 194) := by omega
        have b2 : ¬ (224 + c.toNat / 4096 < 224) := by omega
        have b3 : 224 + c.toNat / 4096 < 240 := by omega
        have hc1 : isCont (128 + c.toNat / 64 % 64) = true := by
          simp only [isCont, decide_eq_true_eq]; omega
        have hc2 : isCont (128 + c.toNat % 64) = true := by
          simp only [isCont, decide_eq_true_eq]; omega
        simp only [b0, b1, b2, b3, hc1, hc2, if_neg, if_pos, not_false_iff, and_self,
          if_true, true_and]
        have e : (224 + c.toNat / 4096 - 224) * 4096 + (128 + c.toNat / 64 % 64 - 128) * 64
            + (128 + c.toNat % 64 - 128) = c.toNat := by omega
        rw [e]
        have hrange : (2048 ≤ c.toNat ∧ ¬ (55296 ≤ c.toNat ∧ c.toNat < 57344)) := by omega
        simp only [hrange, if_pos, Char.ofNat_toNat, and_true, not_and, not_lt,
          decide_eq_true_eq]
        have : (2048 ≤ c.toNat ∧ (55296 ≤ c.toNat → 57344 ≤ c.toNat)) := by omega
        simp [this, Char.ofNat_toNat]
      · simp only [h1, h2, h3, if_neg, not_false_iff, List.cons_append, List.nil_append]
        unfold utf8Decode1
        have b0 : ¬ (240 + c.toNat / 262144 < 128) := by omega
        have b1 : ¬ (240 + c.toNat / 262144 < 194) := by omega
        have b2 : ¬ (240 + c.toNat / 262144 < 224) := by omega
        have b3 : ¬ (240 + c.toNat / 262144 < 240) := by omega
        have b4 : 240 + c.toNat / 262144 < 245 := by omega
        have hc1 : isCont (128 + c.toNat / 4096 % 64) = true := by
          simp only [isCont, decide_eq_true_eq]; omega
        have hc2 : isCont (128 + c.toNat / 64 % 64) = true := by
          simp only [isCont, decide_eq_true_eq]; omega
        have hc3 : isCont (128 + c.toNat % 64) = true := by
          simp only [isCont, decide_eq_true_eq]; omega
        simp only [b0, b1, b2, b3, b4, hc1, hc2, hc3, if_neg, if_pos, not_false_iff,
          and_self, if_true, true_and]
        have e : (240 + c.toNat / 262144 - 240) * 262144 + (128 + c.toNat / 4096 % 64 - 128)
            * 4096 + (128 + c.toNat / 64 % 64 - 128) * 64 + (128 + c.toNat % 64 - 128)
            = c.toNat := by omega
        rw [e]
        have hrange : (65536 ≤ c.toNat ∧ c.toNat < 1114112) := by omega
        simp [hrange, Char.ofNat_toNat]

theorem utf8Decode1_length : ∀ {bs : Bytes} {c : Char} {rest : Bytes},
    utf8Decode1 bs = some (c, rest) → rest.length < bs.length := by
  intro bs c rest h
  match bs with
  | [] => simp [utf8Decode1] at h
  | b :: tl =>
    unfold utf8Decode1 at h
    repeat' split at h
    all_goals try dsimp only at h
    all_goals repeat' split at h
    all_goals
      try simp only [Option.some.injEq, Prod.mk.injEq] at h
    all_goals
      try (obtain ⟨h1, h2⟩ := h
           subst h2
           simp_all only [List.length_cons, List.cons.injEq]
           omega)
    all_goals simp at h

theorem utf8DecodeAux_mono (f1 : Nat) :
    ∀ (bs : Bytes) (f2 : Nat), bs.length ≤ f1 → bs.length ≤ f2 →
      utf8DecodeAux f1 bs = utf8DecodeAux f2 bs := by
  induction f1 with
  | zero =>
    intro bs f2 hl _
    match bs with
    | [] => cases f2 <;> rfl
    | b :: bs' => simp at hl
  | succ n ih =>
    intro bs f2 hl hl2
    match bs with
    | [] => cases f2 <;> rfl
    | b :: bs' =>
      match f2 with
      | 0 => simp at hl2
      | m + 1 =>
        simp only [utf8DecodeAux]
        cases hdec : utf8Decode1 (b :: bs') with
        | none => simp only [hdec]
        | some pr =>
          obtain ⟨c, rest⟩ := pr
          have hlen := utf8Decode1_length hdec
          simp only [hdec]
          rw [ih rest m (by simp only [List.length_cons] at hl hlen; omega)
            (by simp only [List.length_cons] at hl2 hlen; omega)]


theorem utf8Bytes1_ne_nil (c : Char) : utf8Bytes1 c ≠ [] := by
  unfold utf8Bytes1
  intro h
  dsimp only at h
  repeat' split at h
  all_goals simp at h

theorem utf8Bytes1_lt (c : Char) : ∀ b ∈ utf8Bytes1 c, b < 256 := by
  have hv := c.valid
  change c.toNat < 55296 ∨ 57343 < c.toNat ∧ c.toNat < 1114112 at hv
  unfold utf8Bytes1
  intro b hb
  dsimp only at hb
  repeat' split at hb
  all_goals (simp at hb; omega)

theorem utf8Encode_cons (c : Char) (s : Str) :
    utf8Encode (c :: s) = utf8Bytes1 c ++ utf8Encode s := by
  simp [utf8Encode]

theorem utf8DecodeAux_encode (s : Str) : ∀ fuel, (utf8Encode s).length ≤ fuel →
    utf8DecodeAux fuel (utf8Encode s) = some s := by
  induction s with
  | nil => intro fuel _; cases fuel <;> rfl
  | cons c s ih =>
    intro fuel hf
    rw [utf8Encode_cons] at hf ⊢
    rcases hbc : utf8Bytes1 c with _ | ⟨b, bs⟩
    · exact absurd hbc (utf8Bytes1_ne_nil c)
    · rw [hbc] at hf
      have hdec := utf8Decode1_encode c (utf8Encode s)
      rw [hbc] at hdec
      simp only [List.cons_append] at hdec hf ⊢
      simp only [List.length_cons, List.length_append] at hf
      obtain ⟨f, rfl⟩ : ∃ f, fuel = f + 1 := ⟨fuel - 1, by omega⟩
      simp only [utf8DecodeAux, hdec]
      rw [ih f (by omega)]

theorem utf8Decode_encode (s : Str) : utf8Decode (utf8Encode s) = some s :=
  utf8DecodeAux_encode s _ le_rfl

theorem utf8DecodeReplaceAux_encode (s : Str) : ∀ fuel, (utf8Encode s).length ≤ fuel →
    utf8DecodeReplaceAux fuel (utf8Encode s) = s := by
  induction s with
  | nil => intro fuel _; cases fuel <;> rfl
  | cons c s ih =>
    intro fuel hf
    rw [utf8Encode_cons] at hf ⊢
    rcases hbc : utf8Bytes1 c with _ | ⟨b, bs⟩
    · exact absurd hbc (utf8Bytes1_ne_nil c)
    · rw [hbc] at hf
      have hdec := utf8Decode1_encode c (utf8Encode s)
      rw [hbc] at hdec
      simp only [List.cons_append] at hdec hf ⊢
      simp only [List.length_cons, List.length_append] at hf
      obtain ⟨f, rfl⟩ : ∃ f, fuel = f + 1 := ⟨fuel - 1, by omega⟩
      simp only [utf8DecodeReplaceAux, hdec]
      rw [ih f (by omega)]

theorem utf8DecodeReplace_encode (s : Str) : utf8DecodeReplace (utf8Encode s) = s :=
  utf8DecodeReplaceAux_encode s _ le_rfl

theorem hexVal_hexDigit : ∀ b : Nat, b < 256 →
    hexVal (hexDigit (b / 16)) = some (b / 16) ∧ hexVal (hexDigit (b % 16)) = some (b % 16) := by
  decide

/-- A character kept verbatim by `quote` is never a percent sign. -/
theorem safe_ne_pct {c : Char} (h : alwaysSafe c = true ∨ c ∈ quoteSafe) : c ≠ '%' := by
  intro he
  subst he
  revert h
  decide

/-- The characters `quote` does not keep verbatim. -/
def qUnsafe (c : Char) : Bool := ¬ (alwaysSafe c ∨ c ∈ quoteSafe)

theorem collectPct_nil : collectPct [] = ([], []) := rfl

theorem collectPct_cons_ne (c : Char) (t : Str) (hne : c ≠ '%') :
    collectPct (c :: t) = ([], c :: t) := by
  conv_lhs => rw [collectPct.eq_def]
  simp [hne]

theorem collectPct_cons_pct (c1 c2 : Char) (rest : Str) (h l : Nat)
    (h1 : hexVal c1 = some h) (h2 : hexVal c2 = some l) :
    collectPct ('%' :: c1 :: c2 :: rest)
      = ((16 * h + l) :: (collectPct rest).1, (collectPct rest).2) := by
  conv_lhs => rw [collectPct.eq_def]
  simp [h1, h2]

theorem collectPct_pctBlock (bs : Bytes) (t : Str) (hb : ∀ b ∈ bs, b < 256) :
    collectPct (bs.flatMap pctOf ++ t) = (bs ++ (collectPct t).1, (collectPct t).2) := by
  induction bs with
  | nil => simp
  | cons b bs ih =>
    have hblt : b < 256 := hb b (List.mem_cons_self _ _)
    obtain ⟨h1, h2⟩ := hexVal_hexDigit b hblt
    have he : (b :: bs).flatMap pctOf ++ t
        = '%' :: hexDigit (b / 16) :: hexDigit (b % 16) :: (bs.flatMap pctOf ++ t) := by
      simp [pctOf]
    rw [he, collectPct_cons_pct _ _ _ _ _ h1 h2]
    rw [ih (fun x hx => hb x (List.mem_cons_of_mem _ hx))]
    have hb16 : 16 * (b / 16) + b % 16 = b := by omega
    rw [hb16]
    simp

/-- What `collectPct` sees at the front of a quoted string: the UTF-8 bytes of
the maximal unsafe prefix, and the quoted remainder. -/
theorem collectPct_pquote (s : Str) :
    collectPct (pquote s)
      = (utf8Encode (s.takeWhile qUnsafe), pquote (s.dropWhile qUnsafe)) := by
  induction s with
  | nil => simp [pquote, utf8Encode, collectPct]
  | cons c s ih =>
    by_cases hc : alwaysSafe c = true ∨ c ∈ quoteSafe
    · have hqu : qUnsafe c = false := by simp [qUnsafe, hc]
      have hq : pquote (c :: s) = c :: pquote s := by
        simp [pquote, quoteChar, hc]
      rw [hq, collectPct_cons_ne _ _ (safe_ne_pct hc)]
      simp [List.takeWhile_cons, List.dropWhile_cons, hqu, utf8Encode, hq]
    · have hqu : qUnsafe c = true := by simp [qUnsafe, hc]
      have hq : pquote (c :: s) = (utf8Bytes1 c).flatMap pctOf ++ pquote s := by
        simp [pquote, quoteChar, hc]
      rw [hq, collectPct_pctBlock _ _ (utf8Bytes1_lt c), ih]
      simp [List.takeWhile_cons, List.dropWhile_cons, hqu, utf8Encode]

theorem pquote_append (a b : Str) : pquote (a ++ b) = pquote a ++ pquote b := by
  simp [pquote]

theorem length_pquote_dropWhile (p : Char → Bool) (s : Str) :
    (pquote (s.dropWhile p)).length ≤ (pquote s).length := by
  conv_rhs => rw [← List.takeWhile_append_dropWhile (p := p) (l := s)]
  rw [pquote_append]
  simp

theorem unquoteAux_pquote :
    ∀ (n : Nat) (s : Str) (fuel : Nat), s.length ≤ n → (pquote s).length ≤ fuel →
      unquoteAux fuel (pquote s) = s := by
  intro n
  induction n with
  | zero =>
    intro s fuel hs _
    match s with
    | [] => cases fuel <;> rfl
    | _ :: _ => simp at hs
  | succ m ih =>
    intro s fuel hs hf
    match s with
    | [] => cases fuel <;> rfl
    | c :: s' =>
      by_cases hc : alwaysSafe c = true ∨ c ∈ quoteSafe
      · have hq : pquote (c :: s') = c :: pquote s' := by
          simp [pquote, quoteChar, hc]
        rw [hq] at hf ⊢
        simp only [List.length_cons] at hf
        obtain ⟨f, rfl⟩ : ∃ f, fuel = f + 1 := ⟨fuel - 1, by omega⟩
        simp only [unquoteAux]
        rw [if_neg (safe_ne_pct hc)]
        rw [ih s' f (by simp only [List.length_cons] at hs; omega) (by omega)]
      · have hqu : qUnsafe c = true := by simp [qUnsafe, hc]
        have hcol : collectPct (pquote (c :: s'))
            = (utf8Encode (c :: s'.takeWhile qUnsafe), pquote (s'.dropWhile qUnsafe)) := by
          rw [collectPct_pquote]
          simp [List.takeWhile_cons, List.dropWhile_cons, hqu]
        rcases hbc : utf8Bytes1 c with _ | ⟨b, bs⟩
        · exact absurd hbc (utf8Bytes1_ne_nil c)
        · have hfirst : utf8Encode (c :: s'.takeWhile qUnsafe)
              = b :: (bs ++ utf8Encode (s'.takeWhile qUnsafe)) := by
            rw [utf8Encode_cons, hbc]
            simp
          have hhead : pquote (c :: s')
              = '%' :: hexDigit (b / 16) :: hexDigit (b % 16)
                :: (bs.flatMap pctOf ++ pquote s') := by
            have hq : pquote (c :: s') = (utf8Bytes1 c).flatMap pctOf ++ pquote s' := by
              simp [pquote, quoteChar, hc]
            rw [hq, hbc]
            simp [pctOf]
          have hflen : (pquote (c :: s')).length
              = 3 + (bs.flatMap pctOf).length + (pquote s').length := by
            rw [hhead]
            simp only [List.length_cons, List.length_append]
            omega
          rw [hflen] at hf
          obtain ⟨f, rfl⟩ : ∃ f, fuel = f + 1 := ⟨fuel - 1, by omega⟩
          rw [hhead]
          simp only [unquoteAux, if_true]
          rw [← hhead, hcol, hfirst]
          show utf8DecodeReplace (b :: (bs ++ utf8Encode (s'.takeWhile qUnsafe)))
              ++ unquoteAux f (pquote (s'.dropWhile qUnsafe)) = c :: s'
          rw [← hfirst, utf8DecodeReplace_encode]
          have hdw : (s'.dropWhile qUnsafe).length ≤ m := by
            have h1 := congrArg List.length
              (List.takeWhile_append_dropWhile (p := qUnsafe) (l := s'))
            simp only [List.length_append] at h1
            simp only [List.length_cons] at hs
            omega
          have hfw : (pquote (s'.dropWhile qUnsafe)).length ≤ f := by
            have h1 := length_pquote_dropWhile qUnsafe s'
            omega
          rw [ih (s'.dropWhile qUnsafe) f hdw hfw]
          show c :: (s'.takeWhile qUnsafe ++ s'.dropWhile qUnsafe) = c :: s'
          rw [List.takeWhile_append_dropWhile]

/-- `unquote (quote s) = s`: the href attribute stored percent-quoted in the
descriptor tree always unquotes back to the registered path. -/
theorem punquote_pquote (s : Str) : punquote (pquote s) = s :=
  unquoteAux_pquote s.length s (pquote s).length le_rfl le_rfl

theorem pquote_injective {a b : Str} (h : pquote a = pquote b) : a = b := by
  have h2 := punquote_pquote a
  rw [h, punquote_pquote] at h2
  exact h2.symm


/-! ### `posixpath` functions used by the engine -/

/-- `posixpath.dirname`: everything before the final slash, with trailing
slashes of the head stripped unless the head is all slashes. -/
def dirname (p : Str) : Str :=
  let head := (p.reverse.dropWhile (· ≠ '/')).reverse
  if head ≠ [] ∧ ¬ head.all (· = '/') then rstripChar '/' head else head

/-- `posixpath.basename`: everything after the final slash. -/
def basename (p : Str) : Str := (p.reverse.takeWhile (· ≠ '/')).reverse

/-- `posixpath.join` of two components. -/
def joinpath2 (a b : Str) : Str :=
  if b.take 1 = ['/'] then b
  else if a = [] ∨ a.getLast? = some '/' then a ++ b
  else a ++ '/' :: b

/-- `posixpath.join(a, *rest)`. -/
def joinpathList (a : Str) (rest : List Str) : Str := rest.foldl joinpath2 a

/-- `posixpath.normpath`. -/
def normpath (p : Str) : Str :=
  if p = [] then ['.']
  else
    let initSlashes : Nat :=
      if p.take 1 = ['/'] then
        if p.take 2 = ['/', '/'] ∧ ¬ p.take 3 = ['/', '/', '/'] then 2 else 1
      else 0
    let comps := p.splitOn '/'
    let newComps := comps.foldl (fun acc comp =>
      if comp = [] ∨ comp = ['.'] then acc
      else if ¬ comp = str ".." ∨ (initSlashes = 0 ∧ acc = []) ∨
          acc.getLast? = some (str "..") then acc ++ [comp]
      else if ¬ acc = [] then acc.dropLast
      else acc) []
    let joined := List.intercalate ['/'] newComps
    let res := List.replicate initSlashes '/' ++ joined
    if res = [] then ['.'] else res

/-- Longest common prefix length of two component lists
(`os.path.commonprefix` on a two-element list). -/
def commonLen : List Str → List Str → Nat
  | a :: as, b :: bs => if a = b then 1 + commonLen as bs else 0
  | _, _ => 0

/-- `posixpath.relpath(path, start)`.  `abspath` resolves relative inputs
against the process working directory; the model fixes the working directory
at the filesystem root, which cancels out whenever both arguments are
relative (the only way the engine calls it). -/
def relpath (p start : Str) : Str :=
  let pl := ((normpath (joinpath2 ['/'] p)).splitOn '/').filter (¬ · = [])
  let sl := ((normpath (joinpath2 ['/'] start)).splitOn '/').filter (¬ · = [])
  let i := commonLen sl pl
  let rel := List.replicate (sl.length - i) (str "..") ++ pl.drop i
  if rel = [] then ['.'] else List.intercalate ['/'] rel

/-! ### `urllib.parse.urlsplit` / `urlunsplit` -/

structure UrlParts where
  scheme : Str
  netloc : Str
  upath : Str
  query : Str
  fragment : Str
deriving DecidableEq, Repr

def isAsciiAlpha (c : Char) : Bool :=
  (65 ≤ c.toNat ∧ c.toNat ≤ 90) ∨ (97 ≤ c.toNat ∧ c.toNat ≤ 122)

def isSchemeChar (c : Char) : Bool :=
  isAsciiAlpha c ∨ (48 ≤ c.toNat ∧ c.toNat ≤ 57) ∨ c = '+' ∨ c = '-' ∨ c = '.'

def lowerStr (s : Str) : Str := s.map Char.toLower

/-- `urllib.parse.urlsplit`: scheme, then `//netloc`, then fragment, then
query, in that order. -/
def urlsplit (url : Str) : UrlParts :=
  let cand := url.takeWhile (¬ · = ':')
  let hasScheme : Bool := decide (cand.length < url.length) && ! cand.isEmpty &&
    (match cand.head? with | some c => isAsciiAlpha c | none => false) &&
    cand.tail.all isSchemeChar
  let scheme := if hasScheme then lowerStr cand else []
  let rest := if hasScheme then url.drop (cand.length + 1) else url
  let hasNet := rest.take 2 = str "//"
  let netloc := if hasNet then (rest.drop 2).takeWhile (fun c => ¬ (c = '/' ∨ c = '?' ∨ c = '#')) else []
  let rest2 := if hasNet then (rest.drop 2).dropWhile (fun c => ¬ (c = '/' ∨ c = '?' ∨ c = '#')) else rest
  let beforeFrag := if '#' ∈ rest2 then rest2.takeWhile (¬ · = '#') else rest2
  let fragment := if '#' ∈ rest2 then (rest2.dropWhile (¬ · = '#')).drop 1 else []
  let upath := if '?' ∈ beforeFrag then beforeFrag.takeWhile (¬ · = '?') else beforeFrag
  let query := if '?' ∈ beforeFrag then ((beforeFrag.dropWhile (¬ · = '?')).drop 1) else []
  ⟨scheme, netloc, upath, query, fragment⟩

/-- `urllib.parse.urlunsplit`. -/
def urlunsplit (u : UrlParts) : Str :=
  let url0 := u.upath
  let url1 :=
    if ¬ u.netloc = [] ∨ url0.take 2 = str "//" then
      str "//" ++ u.netloc ++ (if ¬ url0 = [] ∧ ¬ url0.take 1 = ['/'] then '/' :: url0 else url0)
    else url0
  let url2 := if ¬ u.scheme = [] then u.scheme ++ ':' :: url1 else url1
  let url3 := if ¬ u.query = [] then url2 ++ '?' :: u.query else url2
  if ¬ u.fragment = [] then url3 ++ '#' :: u.fragment else url3


/-! ### Association lists with Python `dict` semantics
(insertion order preserved, assignment in place, `pop` removes). -/

def alGet {κ α : Type} [DecidableEq κ] : List (κ × α) → κ → Option α
  | [], _ => none
  | (k', v) :: t, k => if k' = k then some v else alGet t k

def alSet {κ α : Type} [DecidableEq κ] : List (κ × α) → κ → α → List (κ × α)
  | [], k, v => [(k, v)]
  | (k', v') :: t, k, v => if k' = k then (k', v) :: t else (k', v') :: alSet t k v

def alErase {κ α : Type} [DecidableEq κ] : List (κ × α) → κ → List (κ × α)
  | [], _ => []
  | (k', v') :: t, k => if k' = k then t else (k', v') :: alErase t k

/-! ### Backend handles (`epub3/util/file.py`) -/

/-- Python exception classes raised by the engine.  `lookupError` covers
`LookupError` and its subclass `KeyError`; `valueError` covers `ValueError`
and its subclass `UnicodeDecodeError`. -/
inductive Err
  | assertionError
  | fileExistsError
  | lookupError
  | fileNotFoundError
  | valueError
  | typeError
deriving DecidableEq, Repr

instance {ε α : Type} [DecidableEq ε] [DecidableEq α] : DecidableEq (Except ε α) :=
  fun a b =>
    match a, b with
    | .ok x, .ok y =>
      if h : x = y then isTrue (by rw [h]) else isFalse (fun hh => h (Except.ok.inj hh))
    | .error e, .error f =>
      if h : e = f then isTrue (by rw [h]) else isFalse (fun hh => h (Except.error.inj hh))
    | .ok _, .error _ => isFalse (fun hh => Except.noConfusion hh)
    | .error _, .ok _ => isFalse (fun hh => Except.noConfusion hh)

/-- Which storage a `File` handle is bound to: a scratch file of the
manifest's temporary filesystem, an entry of the read-only original archive,
or a caller-supplied backend. -/
inductive Backing
  | work (name : Str)
  | archive (path : Str)
  | user (key : Str)
deriving DecidableEq, Repr

/-- `epub3.util.file.File`: a capability-checked handle.  `openModes` is the
computed `open_modes` frozenset (`"rwxab+"` for temp files, `"r"` for archive
entries). -/
structure File where
  backing : Backing
  openModes : Str
deriving DecidableEq, Repr

/-- Membership in `OPEN_MODES`: every string formed of exactly one of
`rwax`, at most one of `bt`, and at most one `+`, in any order. -/
def OPEN_MODES_mem (m : Str) : Bool :=
  m.all (fun c => c ∈ str "rwaxbt+") &&
  decide (m.count 'r' + m.count 'w' + m.count 'a' + m.count 'x' = 1) &&
  decide (m.count 'b' + m.count 't' ≤ 1) &&
  decide (m.count '+' ≤ 1)

/-- `File.check_open_mode`: pure capability test.  `"r"` is always legal;
with an empty capability set only read-no-update modes pass; otherwise every
requested capability bit in `"rwxa+"` must lie in `openModes`. -/
def File.check_open_mode (f : File) (mode : Str) : Bool :=
  if ¬ OPEN_MODES_mem mode then false
  else if mode = ['r'] then true
  else if f.openModes.isEmpty then mode.contains 'r' && ! mode.contains '+'
  else (str "rwxa+").all fun c => ! mode.contains c || f.openModes.contains c

/-- Byte storage reachable from a manifest: the scratch (temporary)
filesystem, the read-only original archive, and caller-supplied backends. -/
structure Sto where
  workfs : List (Str × Bytes)
  archive : List (Str × Bytes)
  userfs : List (Str × Bytes)
deriving DecidableEq, Repr

/-- An open stream as returned by `File.open`: the backing it reads/writes,
the effective `rwax+` mode, and the initial stream position. -/
structure Handle where
  backing : Backing
  eff : Str
  pos : Nat
deriving DecidableEq, Repr

/-- The backend `open` call of the wrapped filesystem (`io.open` semantics on
scratch/user storage; `ZipFile.open` — `KeyError` on a missing name — on the
archive). -/
def backendOpen (bk : Backing) (eff : Str) (st : Sto) : Sto × Except Err Handle :=
  match bk with
  | .archive p =>
    match alGet st.archive p with
    | none => (st, .error .lookupError)
    | some _ => (st, .ok ⟨bk, eff, 0⟩)
  | .work n =>
    match eff.head? with
    | some 'r' =>
      (match alGet st.workfs n with
       | none => (st, .error .fileNotFoundError)
       | some _ => (st, .ok ⟨bk, eff, 0⟩))
    | some 'w' => ({st with workfs := alSet st.workfs n []}, .ok ⟨bk, eff, 0⟩)
    | some 'x' =>
      (match alGet st.workfs n with
       | some _ => (st, .error .fileExistsError)
       | none => ({st with workfs := alSet st.workfs n []}, .ok ⟨bk, eff, 0⟩))
    | some 'a' =>
      let cur := (alGet st.workfs n).getD []
      ({st with workfs := alSet st.workfs n cur}, .ok ⟨bk, eff, cur.length⟩)
    | _ => (st, .error .valueError)
  | .user k =>
    match eff.head? with
    | some 'r' =>
      (match alGet st.userfs k with
       | none => (st, .error .fileNotFoundError)
       | some _ => (st, .ok ⟨bk, eff, 0⟩))
    | some 'w' => ({st with userfs := alSet st.userfs k []}, .ok ⟨bk, eff, 0⟩)
    | some 'x' =>
      (match alGet st.userfs k with
       | some _ => (st, .error .fileExistsError)
       | none => ({st with userfs := alSet st.userfs k []}, .ok ⟨bk, eff, 0⟩))
    | some 'a' =>
      let cur := (alGet st.userfs k).getD []
      ({st with userfs := alSet st.userfs k cur}, .ok ⟨bk, eff, cur.length⟩)
    | _ => (st, .error .valueError)

/-- `File.open` (the closure built in `File._init_open`): validate the
requested mode against `OPEN_MODES` and the capability set, reduce it to an
effective `rwax+` mode, and open the backend.  The `b`/`t` layers only choose
between raw bytes and decoding, which the byte-level model applies at the
call sites. -/
def File.openIO (f : File) (mode : Str) (st : Sto) : Sto × Except Err Handle :=
  if ¬ OPEN_MODES_mem mode then (st, .error .valueError)
  else
    let effRes : Except Err Str :=
      if mode = ['r'] then .ok ['r']
      else if f.openModes.isEmpty then
        if ¬ mode.contains 'r' ∨ mode.contains '+' then .error .valueError else .ok ['r']
      else
        if (str "rwxa+").any (fun c => mode.contains c && ! f.openModes.contains c) then
          .error .valueError
        else
          .ok (((str "rwax").filter (fun c => mode.contains c)).take 1
            ++ (if mode.contains '+' then ['+'] else []))
    match effRes with
    | .error e => (st, .error e)
    | .ok eff => backendOpen f.backing eff st

/-- `stream.read()` on a freshly opened handle: the backing's bytes from the
stream position on. -/
def Handle.readAll (h : Handle) (st : Sto) : Except Err Bytes :=
  let content? := match h.backing with
    | .work n => alGet st.workfs n
    | .archive p => alGet st.archive p
    | .user k => alGet st.userfs k
  match content? with
  | none => .error .fileNotFoundError
  | some content => .ok (content.drop h.pos)

/-- `stream.write(data)` on a freshly opened handle: overwrite from the
stream position (archive handles are never opened writable, so the archive
case is unreachable and leaves storage untouched). -/
def Handle.write (h : Handle) (data : Bytes) (st : Sto) : Sto :=
  match h.backing with
  | .work n =>
    let cur := (alGet st.workfs n).getD []
    let newContent := cur.take h.pos ++ data ++ cur.drop (h.pos + data.length)
    {st with workfs := alSet st.workfs n newContent}
  | .user k =>
    let cur := (alGet st.userfs k).getD []
    let newContent := cur.take h.pos ++ data ++ cur.drop (h.pos + data.length)
    {st with userfs := alSet st.userfs k newContent}
  | .archive _ => st


/-! ### The Manifest (`epub3/epub.py`, class `Manifest`) -/

/-- An `<item>` element of the `<manifest>` element of the package
descriptor.  `attrHref` holds the percent-quoted form exactly as the XML
attribute does; `eid` is the element's object identity. -/
structure Element where
  eid : Nat
  attrId : Str
  attrHref : Str
  attrMediaType : Str
deriving DecidableEq, Repr

/-- An `Item` value as handed back to callers: the id and the identity of
the wrapped element. -/
structure ItemRef where
  id : Str
  eid : Nat
deriving DecidableEq, Repr

/-- The manifest: the `<manifest>` element's children (`root`), the
id-to-item registry (the `dict` superclass, storing element identities), the
`_href_to_id` and `_href_to_file` indices, the reachable byte storage, a
counter backing `uuid4` freshness and one backing element identities, and the
optional pluggable id generator of the owning `ePub`. -/
structure Manifest where
  root : List Element
  reg : List (Str × Nat)
  hrefToId : List (Str × Str)
  hrefToFile : List (Str × Option File)
  sto : Sto
  uuidCtr : Nat
  eidCtr : Nat
  genId : Option (Str → List Str → Str)

/-- `str(uuid4())` modelled as an injective fresh-name supply. -/
def uuidStr (n : Nat) : Str := 'u' :: List.replicate n 'u'

def ALL_MODES : Str := str "rwxab+"

/-- Modelled from the spec: `guess_media_type` (imported from
`epub3.util.helper` but not present in the source tree available here; the
spec says `media_type` "defaults from extension" via the MIME table).  Maps
the file extension to a media type with an `application/octet-stream`
fallback. -/
def guessMediaType (href : Str) : Str :=
  let ext := lowerStr ((basename href).reverse.takeWhile (¬ · = '.')).reverse
  if (basename href).contains '.' then
    if ext = str "xhtml" then str "application/xhtml+xml"
    else if ext = str "html" ∨ ext = str "htm" then str "text/html"
    else if ext = str "css" then str "text/css"
    else if ext = str "ncx" then str "application/x-dtbncx+xml"
    else if ext = str "js" then str "text/javascript"
    else if ext = str "png" then str "image/png"
    else if ext = str "jpg" ∨ ext = str "jpeg" then str "image/jpeg"
    else if ext = str "xml" then str "application/xml"
    else if ext = str "txt" then str "text/plain"
    else str "application/octet-stream"
  else str "application/octet-stream"

/-- The `file`/`fs` arguments of `Manifest.add`: nothing (a fresh scratch
file), a prebuilt backend handle (the `fs`-, path- and opener-shaped
arguments), or a readable stream whose contents are copied eagerly. -/
inductive AddSource
  | auto
  | handle (f : File)
  | stream (data : Bytes)

namespace Manifest

/-- `Manifest.add`.  Validation order as in the source: strip and reject an
empty href, reject a registered href (`FileExistsError`), draw the `uuid4`,
generate or take the id, reject a registered id (`LookupError`); only then
build the attributes and the backend handle, append the `<item>` element and
fill all three indices. -/
def add (m : Manifest) (href0 : Str) (source : AddSource)
    (id? : Option Str) (mediaType? : Option Str) : Manifest × Except Err ItemRef :=
  let href := stripChar '/' href0
  if href = [] then (m, .error .assertionError)
  else if ¬ (alGet m.hrefToId href).isNone then (m, .error .fileExistsError)
  else
    let uid := uuidStr m.uuidCtr
    let m1 := {m with uuidCtr := m.uuidCtr + 1}
    let id := match id? with
      | some i => i
      | none =>
        match m1.genId with
        | none => uid
        | some g => g href (m1.reg.map Prod.fst)
    if ¬ (alGet m1.reg id).isNone then (m1, .error .lookupError)
    else
      let mt := match mediaType? with
        | some mt0 => if mt0 = [] then guessMediaType href else mt0
        | none => guessMediaType href
      let fm : File × Manifest := match source with
        | .auto => (⟨.work uid, ALL_MODES⟩, m1)
        | .handle f => (f, m1)
        | .stream data =>
          (⟨.work uid, ALL_MODES⟩,
           {m1 with sto := {m1.sto with workfs := alSet m1.sto.workfs uid data}})
      let fl := fm.1
      let m2 := fm.2
      let el : Element := ⟨m2.eidCtr, id, pquote href, mt⟩
      ({m2 with
          root := m2.root ++ [el]
          eidCtr := m2.eidCtr + 1
          reg := alSet m2.reg id el.eid
          hrefToId := alSet m2.hrefToId href id
          hrefToFile := alSet m2.hrefToFile href (some fl)},
       .ok ⟨id, el.eid⟩)

/-- Final `file.open(...)` step of `Manifest.open`. -/
def finalOpen (m : Manifest) (fl : File) (mode : Str) : Manifest × Except Err Handle :=
  let r := fl.openIO mode m.sto
  ({m with sto := r.1}, r.2)

/-- `Manifest.open` (by path).  On a registered path: `x`-modes are refused;
a missing handle is replaced by a fresh scratch handle; a handle whose
capability set cannot serve the mode is materialized — for non-truncating
modes the current bytes are first copied into a fresh scratch file (a missing
source is tolerated unless the mode reads) — and the index entry swapped to
the fresh handle.  On an unregistered path: reading fails, writing first
`add`s the resource.  Finally the (possibly new) handle is opened. -/
def mopen (m : Manifest) (href0 : Str) (mode : Str) : Manifest × Except Err Handle :=
  if ¬ OPEN_MODES_mem mode then (m, .error .valueError)
  else
    let href := stripChar '/' href0
    if href = [] then (m, .error .assertionError)
    else
      match alGet m.hrefToId href with
      | some _ =>
        if mode.contains 'x' then (m, .error .fileExistsError)
        else
          let file? := (alGet m.hrefToFile href).join
          let uid := uuidStr m.uuidCtr
          let m1 := {m with uuidCtr := m.uuidCtr + 1}
          match file? with
          | none =>
            let fl : File := ⟨.work uid, ALL_MODES⟩
            finalOpen {m1 with hrefToFile := alSet m1.hrefToFile href (some fl)} fl mode
          | some fl =>
            if fl.check_open_mode mode then finalOpen m1 fl mode
            else if mode.contains 'w' then
              let fl2 : File := ⟨.work uid, ALL_MODES⟩
              finalOpen {m1 with hrefToFile := alSet m1.hrefToFile href (some fl2)} fl2 mode
            else
              let r := fl.openIO (str "rb") m1.sto
              let m2 := {m1 with sto := r.1}
              match r.2 with
              | .error .fileNotFoundError =>
                if mode.contains 'r' then (m2, .error .fileNotFoundError)
                else
                  let fl2 : File := ⟨.work uid, ALL_MODES⟩
                  finalOpen {m2 with hrefToFile := alSet m2.hrefToFile href (some fl2)} fl2 mode
              | .error e => (m2, .error e)
              | .ok h =>
                match h.readAll m2.sto with
                | .error e => (m2, .error e)
                | .ok bytes =>
                  let m3 := {m2 with sto :=
                    {m2.sto with workfs := alSet m2.sto.workfs uid bytes}}
                  let fl2 : File := ⟨.work uid, ALL_MODES⟩
                  finalOpen {m3 with hrefToFile := alSet m3.hrefToFile href (some fl2)} fl2 mode
      | none =>
        if mode.contains 'r' then (m, .error .fileNotFoundError)
        else
          match m.add href .auto none none with
          | (m1, .error e) => (m1, .error e)
          | (m1, .ok _) =>
            match (alGet m1.hrefToFile href).join with
            | some fl => finalOpen m1 fl mode
            | none => (m1, .error .lookupError)

/-- `Manifest.read` / `read_bytes`: `open(href, "rb")` then `read()`. -/
def mread (m : Manifest) (href : Str) : Manifest × Except Err Bytes :=
  match m.mopen href (str "rb") with
  | (m1, .error e) => (m1, .error e)
  | (m1, .ok h) =>
    match h.readAll m1.sto with
    | .error e => (m1, .error e)
    | .ok bs => (m1, .ok bs)

/-- `Manifest.write` with a bytes payload: `open(href, "wb")` then
`write(data)`. -/
def mwrite (m : Manifest) (href : Str) (data : Bytes) : Manifest × Except Err Nat :=
  match m.mopen href (str "wb") with
  | (m1, .error e) => (m1, .error e)
  | (m1, .ok h) => ({m1 with sto := h.write data m1.sto}, .ok data.length)

/-- `Manifest.read_text`: text-mode open with utf-8 and a strict decode
(`UnicodeDecodeError` is a `ValueError`). -/
def read_text (m : Manifest) (href : Str) : Manifest × Except Err Str :=
  match m.mopen href (str "r") with
  | (m1, .error e) => (m1, .error e)
  | (m1, .ok h) =>
    match h.readAll m1.sto with
    | .error e => (m1, .error e)
    | .ok bs =>
      match utf8Decode bs with
      | none => (m1, .error .valueError)
      | some t => (m1, .ok t)

/-- `Manifest.write_text`: text-mode open with utf-8, encode and write. -/
def write_text (m : Manifest) (href : Str) (text : Str) : Manifest × Except Err Nat :=
  match m.mopen href (str "w") with
  | (m1, .error e) => (m1, .error e)
  | (m1, .ok h) => ({m1 with sto := h.write (utf8Encode text) m1.sto}, .ok text.length)

/-- `file.remove()` on a writable handle (storage unlink; failures are
swallowed by the caller's bare `except`). -/
def fileRemove (m : Manifest) (fl : File) : Manifest :=
  match fl.backing with
  | .work n => {m with sto := {m.sto with workfs := alErase m.sto.workfs n}}
  | .user k => {m with sto := {m.sto with userfs := alErase m.sto.userfs k}}
  | .archive _ => m

/-- `Manifest.remove` (by path): pop the path from `_href_to_id`
(`FileNotFoundError` if unknown), pop the registry entry and its tree
element, pop the handle, and unlink its storage when the handle is
write-capable. -/
def remove (m : Manifest) (href0 : Str) : Manifest × Except Err Unit :=
  let href := stripChar '/' href0
  if href = [] then (m, .error .assertionError)
  else
    match alGet m.hrefToId href with
    | none => (m, .error .fileNotFoundError)
    | some id =>
      let m1 := {m with hrefToId := alErase m.hrefToId href}
      let m2 := match alGet m1.reg id with
        | none => m1
        | some eid =>
          {m1 with reg := alErase m1.reg id, root := m1.root.filter (¬ ·.eid = eid)}
      let file? := (alGet m2.hrefToFile href).join
      let m3 := {m2 with hrefToFile := alErase m2.hrefToFile href}
      match file? with
      | some fl =>
        if fl.check_open_mode ['w'] then (fileRemove m3 fl, .ok ()) else (m3, .ok ())
      | none => (m3, .ok ())

/-- `Manifest.pop(id, default?)`.  The detached element keeps its attributes
in Python; operations never leave a registered id without its tree element,
so the missing-element case only skips the href cleanup. -/
def pop (m : Manifest) (id : Str) (hasDefault : Bool) :
    Manifest × Except Err (Option ItemRef) :=
  match alGet m.reg id with
  | none => if hasDefault then (m, .ok none) else (m, .error .lookupError)
  | some eid =>
    let el? := m.root.find? (·.eid = eid)
    let m1 := {m with reg := alErase m.reg id, root := m.root.filter (¬ ·.eid = eid)}
    match el? with
    | none => (m1, .ok (some ⟨id, eid⟩))
    | some el =>
      let href := punquote el.attrHref
      let file? := (alGet m1.hrefToFile href).join
      let m2 := {m1 with
        hrefToId := alErase m1.hrefToId href
        hrefToFile := alErase m1.hrefToFile href}
      match file? with
      | some fl =>
        if fl.check_open_mode ['w'] then (fileRemove m2 fl, .ok (some ⟨id, eid⟩))
        else (m2, .ok (some ⟨id, eid⟩))
      | none => (m2, .ok (some ⟨id, eid⟩))

/-- `Manifest._rename`: move the `_href_to_id` key (`FileNotFoundError` if
absent), re-quote the element's href attribute, and move the `_href_to_file`
slot (an absent slot becomes an explicit `None`).  When no `Item` was passed,
the element is found through the registry — a missing registry entry raises
with `_href_to_id` already moved, exactly as the source would. -/
def renameRaw (m : Manifest) (itemEid : Option Nat) (href dest : Str) :
    Manifest × Except Err Unit :=
  match alGet m.hrefToId href with
  | none => (m, .error .fileNotFoundError)
  | some id =>
    let m1 := {m with hrefToId := alSet (alErase m.hrefToId href) dest id}
    let eid? := match itemEid with
      | some e => some e
      | none => alGet m1.reg id
    match eid? with
    | none => (m1, .error .lookupError)
    | some eid =>
      let upd : Element → Element := fun el =>
        if el.eid = eid then {el with attrHref := pquote dest} else el
      let m2 := {m1 with root := m1.root.map upd}
      let v := (alGet m2.hrefToFile href).join
      ({m2 with hrefToFile := alSet (alErase m2.hrefToFile href) dest v}, .ok ())

/-- Common part of `Manifest.rename` after argument normalization: a no-op
when the trimmed paths coincide, `FileExistsError` when the target is taken,
otherwise `_rename` followed by an optional single-mapping remap.
(`remap_links` is tied in below once defined.) -/
def renameCore (remap : Manifest → Str → Str → Manifest × List Str)
    (m : Manifest) (itemEid : Option Nat) (href dest : Str) (repair : Bool) :
    Manifest × Except Err ((Str × Str) × Option (List Str)) :=
  if href = dest then (m, .ok ((href, dest), none))
  else if ¬ (alGet m.hrefToId dest).isNone then (m, .error .fileExistsError)
  else
    match m.renameRaw itemEid href dest with
    | (m1, .error e) => (m1, .error e)
    | (m1, .ok _) =>
      if repair then
        let r := remap m1 href dest
        (r.1, .ok ((href, dest), some r.2))
      else (m1, .ok ((href, dest), none))

end Manifest


/-! ### Link remapping (`epub3/util/remap.py`) -/

/-- A regex match as consumed by `path_repl_iter`: the span and the text of
the match's last group (the reference as written). -/
structure RMatch where
  start : Nat
  stop : Nat
  text : Str
deriving DecidableEq, Repr

/-- The `pathmap` argument: a mapping, or the `(old, new)` pair that
`Manifest.rename` passes. -/
inductive PathMap
  | table (entries : List (Str × Str))
  | single (old new : Str)

/-- `check` of `path_repl_iter`: mapping membership, or equality with the
old path. -/
def pmCheck : PathMap → Str → Bool
  | .table es, p => ! (alGet es p).isNone
  | .single old _, p => p = old

/-- `getnew` of `path_repl_iter` (with `relpath` against a non-empty base
directory). -/
def pmGetNew (pm : PathMap) (basedir p : Str) : Str :=
  match pm with
  | .table es =>
    if basedir = [] then (alGet es p).getD [] else relpath ((alGet es p).getD []) basedir
  | .single _ new => if basedir = [] then new else relpath new basedir

/-- Loop body of `path_repl_iter` for a single match: unquote, skip external
references (scheme or netloc present), resolve against the base directory,
look up the path map, and requote the rewritten reference. -/
def pathRepl1 (pm : PathMap) (basedir : Str) (mt : RMatch) : Option ((Nat × Nat) × Str) :=
  let path0 := punquote mt.text
  let urlp := urlsplit path0
  if ¬ urlp.scheme = [] ∨ ¬ urlp.netloc = [] then none
  else
    let path := if basedir = [] then urlp.upath else normpath (joinpath2 basedir urlp.upath)
    if pmCheck pm path then
      some ((mt.start, mt.stop), pquote (urlunsplit {urlp with upath := pmGetNew pm basedir path}))
    else none

/-- `path_repl_iter`. -/
def path_repl_iter (ms : List RMatch) (pm : PathMap) (basedir : Str) :
    List ((Nat × Nat) × Str) :=
  ms.filterMap (pathRepl1 pm basedir)

/-- `apply_repl_iter`: one left-to-right splice pass over the text. -/
def applyReplGo (text : Str) : Nat → List ((Nat × Nat) × Str) → Str
  | start, [] => text.drop start
  | start, ((b, e), r) :: t => ((text.take b).drop start) ++ r ++ applyReplGo text e t

def apply_repl_iter (text : Str) (repls : List ((Nat × Nat) × Str)) : Str :=
  applyReplGo text 0 repls

/-! #### The compiled reference patterns (`CRE_*`), as region matchers

A compiled regex is embedded as its `finditer(text, pos, endpos)` semantics:
a function from the text and a region to the list of non-overlapping
leftmost matches, each exposing its last group. -/

abbrev MatcherFn := Str → Nat → Nat → List RMatch

def isSpaceCh (c : Char) : Bool :=
  c = ' ' ∨ c = '\t' ∨ c = '\n' ∨ c = '\r' ∨ c.toNat = 11 ∨ c.toNat = 12

def isWordCh (c : Char) : Bool :=
  isAsciiAlpha c ∨ (48 ≤ c.toNat ∧ c.toNat ≤ 57) ∨ c = '_'

/-- Length of a quoted-string body `[^q\\]*(?:\\.[^q\\]*)*` before the closing
quote `q` (the dot of the escape does not match a newline). -/
def escBodyLen (q : Char) : Str → Option Nat
  | [] => none
  | c :: t =>
    if c = q then some 0
    else if c = '\\' then
      match t with
      | [] => none
      | c2 :: t2 => if c2 = '\n' then none else (escBodyLen q t2).map (· + 2)
    else (escBodyLen q t).map (· + 1)

/-- Generic non-overlapping leftmost scan driving a single-position matcher:
`tryAt text p e` yields the match at `p` and the resume position. -/
def scanGo (tryAt : Str → Nat → Nat → Option (RMatch × Nat)) (text : Str) (e : Nat) :
    Nat → Nat → List RMatch
  | 0, _ => []
  | fuel + 1, p =>
    if e ≤ p then []
    else
      match tryAt text p e with
      | some (mt, nxt) => mt :: scanGo tryAt text e fuel (max nxt (p + 1))
      | none => scanGo tryAt text e fuel (p + 1)

def scanIter (tryAt : Str → Nat → Nat → Option (RMatch × Nat)) : MatcherFn :=
  fun text b e => scanGo tryAt text e (e + 1) b

def startsWithAt (text : Str) (p : Nat) (pat : Str) : Bool :=
  ((text.drop p).take pat.length) = pat

def charAt (text : Str) (p : Nat) : Option Char := (text.drop p).head?

/-- `CRE_CSS_URL = \burl\(\s*(?:'single'|"double"|bare)\s*\)` at one
position: the group is the quoted body, or the bare run up to the closing
parenthesis. -/
def cssUrlTryAt (text : Str) (p e : Nat) : Option (RMatch × Nat) :=
  let region := (text.take e)
  if ¬ startsWithAt region p (str "url(") then none
  else
    let prevWord : Bool :=
      if p = 0 then false
      else match charAt text (p - 1) with
        | some c => isWordCh c
        | none => false
    if prevWord then none
    else
    let q0 := p + 4
    let ws := ((region.drop q0).takeWhile isSpaceCh).length
    let q1 := q0 + ws
    let quoted : Option (RMatch × Nat) :=
      match charAt region q1 with
      | some c =>
        if c = '\'' ∨ c = '"' then
          match escBodyLen c ((region.drop q1).drop 1) with
          | none => none
          | some blen =>
            let afterQ := q1 + 1 + blen + 1
            let ws2 := ((region.drop afterQ).takeWhile isSpaceCh).length
            if charAt region (afterQ + ws2) = some ')' then
              some (⟨q1 + 1, q1 + 1 + blen, ((region.drop (q1 + 1)).take blen)⟩,
                afterQ + ws2 + 1)
            else none
        else none
      | none => none
    match quoted with
    | some r => some r
    | none =>
      let bare := (region.drop q1).takeWhile (¬ · = ')')
      if charAt region (q1 + bare.length) = some ')' then
        some (⟨q1, q1 + bare.length, bare⟩, q1 + bare.length + 1)
      else none

def cssUrlFinditer : MatcherFn := scanIter cssUrlTryAt

/-- Try the alternation `(?:attr=)` + quoted value at a fixed position
(`t` is the text right after the separator, `pos` its absolute position).
Returns the group's absolute start, its text, and the absolute resume
position. -/
def attrMatch : List Str → Str → Nat → Option (Nat × Str × Nat)
  | [], _, _ => none
  | a :: as, t, pos =>
    if t.take a.length = a then
      match (t.drop a.length).head? with
      | some q =>
        if q = '\'' ∨ q = '"' then
          match escBodyLen q ((t.drop a.length).drop 1) with
          | some blen =>
            some (pos + a.length + 1, ((t.drop a.length).drop 1).take blen,
              pos + a.length + 1 + blen + 1)
          | none => attrMatch as t pos
        else attrMatch as t pos
      | none => attrMatch as t pos
    else attrMatch as t pos

/-- The part of `CRE_REF`-style patterns after `<[^/]`: the shortest
`[^>]*?` run landing on a separator followed by `attr=` and a quoted value
(backtracking continues the walk when the value fails to parse). -/
def refScan (attrs : List Str) (sep : Char → Bool) : Str → Nat → Option (Nat × Str × Nat)
  | [], _ => none
  | c :: t, pos =>
    if c = '>' then none
    else
      match (if sep c then attrMatch attrs t (pos + 1) else none) with
      | some r => some r
      | none => refScan attrs sep t (pos + 1)

/-- `<[^/][^>]*?SEP(?:attr=)('…'|"…")` at one position: covers `CRE_REF`
(separator `[\s:]`, attributes `href=`/`src=`) and `CRE_STYLE_ATTR`
(separator `\s`, attribute `style=`). -/
def refTryAtWith (attrs : List Str) (sep : Char → Bool) (text : Str) (p e : Nat) :
    Option (RMatch × Nat) :=
  let region := text.take e
  match charAt region p, charAt region (p + 1) with
  | some '<', some c1 =>
    if c1 = '/' then none
    else
      match refScan attrs sep (region.drop (p + 2)) (p + 2) with
      | some (gs, gt, rs) => some (⟨gs, gs + gt.length, gt⟩, rs)
      | none => none
  | _, _ => none

def refFinditer : MatcherFn :=
  scanIter (refTryAtWith [str "href=", str "src="] (fun c => isSpaceCh c ∨ c = ':'))

def styleAttrFinditer : MatcherFn :=
  scanIter (refTryAtWith [str "style="] isSpaceCh)

/-- Index of the first occurrence of `pat` in `t`. -/
def findSubFrom (pat : Str) : Str → Nat → Option Nat
  | [], i => if pat = [] then some i else none
  | c :: rest, i =>
    if (c :: rest).take pat.length = pat then some i else findSubFrom pat rest (i + 1)

/-- `CRE_STYLE_ELEMENT = <style(?:\s[^>]*|)>(?P<value>(?s:.+?))</style>` at
one position. -/
def styleElemTryAt (text : Str) (p e : Nat) : Option (RMatch × Nat) :=
  let region := text.take e
  if ¬ startsWithAt region p (str "<style") then none
  else
    let q := p + 6
    let afterOpen : Option Nat :=
      match charAt region q with
      | some '>' => some (q + 1)
      | some c =>
        if isSpaceCh c then
          let run := ((region.drop (q + 1)).takeWhile (¬ · = '>')).length
          if charAt region (q + 1 + run) = some '>' then some (q + 1 + run + 1) else none
        else none
      | none => none
    match afterOpen with
    | none => none
    | some op =>
      match findSubFrom (str "</style>") ((region.drop op).drop 1) 1 with
      | none => none
      | some i =>
        some (⟨op, op + i, (region.drop op).take i⟩, op + i + 8)

def styleElemFinditer : MatcherFn := scanIter styleElemTryAt

/-- `chain_finditer`: nested region scans, innermost matches reported. -/
def chain_finditer : List MatcherFn → Str → Nat → Nat → List RMatch
  | [], _, _, _ => []
  | [f], text, b, e => f text b e
  | f :: fs, text, b, e =>
    (f text b e).flatMap fun mt => chain_finditer fs text mt.start mt.stop

/-- The per-media-type pattern table entry: a single regex / nested chain, or
a `list` of such sub-patterns (merged with a sort, see `remap_links`). -/
inductive Patterns
  | chain (cres : List MatcherFn)
  | group (subs : List (List MatcherFn))

/-- `LINK_PATTERNS`: CSS resources are scanned with the `url()` grammar, NCX
documents with the `href=`/`src=` grammar, and (X)HTML documents with the
`href=`/`src=` grammar plus nested CSS scans of `style` attributes and
`<style>` elements. -/
def LINK_PATTERNS : List ((Str → Bool) × Patterns) :=
  [ (fun mt => mt = str "text/css", .chain [cssUrlFinditer]),
    (fun mt => mt = str "application/x-dtbncx+xml", .chain [refFinditer]),
    (fun mt => mt = str "text/html" ∨ mt = str "application/xhtml+xml",
      .group [[refFinditer], [styleAttrFinditer, cssUrlFinditer],
        [styleElemFinditer, cssUrlFinditer]]) ]

/-- Lexicographic string order (Python `<` on `str`). -/
def strLE : Str → Str → Bool
  | [], _ => true
  | _ :: _, [] => false
  | c :: t, d :: u => c.toNat < d.toNat ∨ (c = d ∧ strLE t u)

/-- Python tuple order on `((begin, end), replacement)`. -/
def replLE (x y : (Nat × Nat) × Str) : Bool :=
  x.1.1 < y.1.1 ∨ (x.1.1 = y.1.1 ∧ (x.1.2 < y.1.2 ∨ (x.1.2 = y.1.2 ∧ strLE x.2 y.2)))

/-- The substitutions computed for one resource: per sub-pattern lists, the
non-empty ones merged by a sort when there are several. -/
def itemRepls (pats : Patterns) (text : Str) (pm : PathMap) (basedir : Str) :
    List ((Nat × Nat) × Str) :=
  match pats with
  | .chain cres => path_repl_iter (chain_finditer cres text 0 text.length) pm basedir
  | .group subs =>
    let ls := (subs.map fun cres =>
      path_repl_iter (chain_finditer cres text 0 text.length) pm basedir).filter (¬ · = [])
    if 1 < ls.length then (ls.flatten).mergeSort replLE else ls.flatten

/-- The `try` body of `remap_links` for one item: read, scan, splice, write
back when something changed; any failure is caught and the resource skipped,
a scanned resource is reported whether or not it was rewritten. -/
def remapItem (m : Manifest) (pm : PathMap) (pats : Patterns) (eid : Nat) :
    Manifest × Option Str :=
  match m.root.find? (·.eid = eid) with
  | none => (m, none)
  | some el =>
    let href := punquote el.attrHref
    match m.read_text href with
    | (m1, .error _) => (m1, none)
    | (m1, .ok text) =>
      let basedir := dirname href
      let repls := itemRepls pats text pm basedir
      if ¬ repls = [] then
        let text2 := apply_repl_iter text repls
        match m1.write_text href text2 with
        | (m2, .error _) => (m2, none)
        | (m2, .ok _) => (m2, some href)
      else (m1, some href)

/-- `remap_links(manifest, pathmap, link_patterns)`: per media-type group,
scan each matching resource; failures are caught per resource; the returned
list collects the href of every resource whose `try` body completed. -/
def remap_links (m : Manifest) (pm : PathMap)
    (link_patterns : List ((Str → Bool) × Patterns)) : Manifest × List Str :=
  link_patterns.foldl (fun acc pp =>
    let sel := acc.1.reg.filterMap fun q =>
      match acc.1.root.find? (·.eid = q.2) with
      | some el => if pp.1 el.attrMediaType then some q.2 else none
      | none => none
    sel.foldl (fun acc2 eid =>
      let r := remapItem acc2.1 pm pp.2 eid
      (r.1, acc2.2 ++ (match r.2 with | some h => [h] | none => [])))
      acc) (m, [])

/-- `remap_links` with the default `LINK_PATTERNS`. -/
def remapLinksD (m : Manifest) (pm : PathMap) : Manifest × List Str :=
  remap_links m pm LINK_PATTERNS


namespace Manifest

/-- `Manifest.rename(href, dest_href, repair=False)` with string arguments:
strip both paths, record the pathpair, no-op when they coincide,
`FileExistsError` when the target is taken, else `_rename` and an optional
single-mapping repair pass. -/
def rename (m : Manifest) (href0 dest0 : Str) (repair : Bool) :
    Manifest × Except Err ((Str × Str) × Option (List Str)) :=
  let href := stripChar '/' href0
  if href = [] then (m, .error .assertionError)
  else
    let dest := stripChar '/' dest0
    if dest = [] then (m, .error .assertionError)
    else
      renameCore (fun mm h d => remapLinksD mm (.single h d)) m none href dest repair

/-- `Manifest.rename` with an `Item` argument (as `batch_rename` calls it):
the item must be registered, its href is taken from the element attribute
untrimmed, and `_rename` receives the item itself. -/
def renameItem (m : Manifest) (id : Str) (dest0 : Str) (repair : Bool) :
    Manifest × Except Err ((Str × Str) × Option (List Str)) :=
  match alGet m.reg id with
  | none => (m, .error .lookupError)
  | some eid =>
    match m.root.find? (·.eid = eid) with
    | none => (m, .error .lookupError)
    | some el =>
      let href := punquote el.attrHref
      let dest := stripChar '/' dest0
      if dest = [] then (m, .error .assertionError)
      else
        renameCore (fun mm h d => remapLinksD mm (.single h d)) m (some eid) href dest repair

/-- The result record of `batch_rename`: the aggregated path map, the
per-resource failures, and the optional repair report. -/
structure BatchResult where
  pathmap : List (Str × Str)
  fails : List (Str × Err)
  repairs : Option (List Str)

/-- `Manifest.batch_rename(mapper, predicate, repair)` for the mapping /
href-predicate shape of its arguments (a `Mapping` mapper becomes the
function `href ↦ mapping.get(href, href)` and, when no predicate is given,
the membership predicate).  Iterates the registry in insertion order,
renaming each matching item; failures are collected instead of propagated;
one remap pass over the aggregated path map runs at the end when requested. -/
def batch_rename (m : Manifest) (mapper : Str → Str) (pred : Str → Bool)
    (repair : Bool) : Manifest × BatchResult :=
  let ids := m.reg.map Prod.fst
  let step := ids.foldl (fun acc id =>
    match alGet acc.1.reg id with
    | none => acc
    | some eid =>
      match acc.1.root.find? (·.eid = eid) with
      | none => acc
      | some el =>
        let href := punquote el.attrHref
        if pred href then
          match acc.1.renameItem id (mapper href) false with
          | (m1, .ok r) =>
            if r.1.1 = r.1.2 then (m1, acc.2)
            else (m1, (acc.2.1 ++ [(r.1.1, r.1.2)], acc.2.2))
          | (m1, .error e) => (m1, (acc.2.1, acc.2.2 ++ [(href, e)]))
        else acc) (m, (([] : List (Str × Str)), ([] : List (Str × Err))))
  let m1 := step.1
  let pathmap := step.2.1
  let fails := step.2.2
  if ¬ pathmap = [] ∧ repair then
    let r := remapLinksD m1 (.table pathmap)
    (r.1, ⟨pathmap, fails, some r.2⟩)
  else (m1, ⟨pathmap, fails, none⟩)

/-- `Manifest.replace(href, dest_href)` with string arguments: the source
must exist, a distinct occupied target is deleted (`del self[id]`, a full
`pop`), then `_rename` moves the source onto the target path. -/
def replace (m : Manifest) (href0 dest0 : Str) : Manifest × Except Err Unit :=
  let href := stripChar '/' href0
  if href = [] then (m, .error .assertionError)
  else if (alGet m.hrefToId href).isNone then (m, .error .fileNotFoundError)
  else
    let dest := stripChar '/' dest0
    if dest = [] then (m, .error .assertionError)
    else if href = dest then (m, .ok ())
    else
      let step : Manifest × Except Err Unit :=
        match alGet m.hrefToId dest with
        | some did =>
          match m.pop did false with
          | (m1, .error e) => (m1, .error e)
          | (m1, .ok _) => (m1, .ok ())
        | none => (m, .ok ())
      match step with
      | (m1, .error e) => (m1, .error e)
      | (m1, .ok _) =>
        match m1.renameRaw none href dest with
        | (m2, .error e) => (m2, .error e)
        | (m2, .ok _) => (m2, .ok ())

end Manifest


/-! ### Glob matching (`Manifest.glob`, `posix_glob_translate_iter`) -/

/-- The regex fragments produced by `posix_glob_translate_iter` and
`re.escape`, as an AST: literal characters, `.` (from `?`), `[^/]*` (from
`*`), and `[^/]*(?:/[^/]*)*` (from `**`). -/
inductive Rx
  | ch (c : Char)
  | anyCh
  | segStar
  | allStar
deriving DecidableEq, Repr

/-- Anchored (full-)match semantics of a fragment sequence.  `[^/]*` consumes
any slash-free prefix; `[^/]*(?:/[^/]*)*` consumes any prefix (every string
splits into slash-separated segments). -/
def rxMatch : List Rx → Str → Bool
  | [], s => s.isEmpty
  | .ch c :: ts, s =>
    match s with
    | c' :: s' => c = c' && rxMatch ts s'
    | [] => false
  | .anyCh :: ts, s =>
    match s with
    | c' :: s' => ! c' = '\n' && rxMatch ts s'
    | [] => false
  | .segStar :: ts, s =>
    (List.range (s.length + 1)).any fun k =>
      ((s.take k).all (¬ · = '/')) && rxMatch ts (s.drop k)
  | .allStar :: ts, s =>
    (List.range (s.length + 1)).any fun k => rxMatch ts (s.drop k)

/-- `fnmatch.translate(part)[4:-3].replace(".*", "[^/]*")` for parts built
from literals, `?` and `*` (bracket classes, which no claim exercises, are
not modelled). -/
def translatePart (part : Str) : List Rx :=
  part.flatMap fun c =>
    if c = '*' then [.segStar] else if c = '?' then [.anyCh] else [.ch c]

/-- `posix_glob_translate_iter`: empty parts are skipped, `*` is one
segment's worth of characters, an all-star part of length ≥ 2 is any run of
segments, anything else is translated per part. -/
def posixGlobTranslate (pattern : Str) : List (List Rx) :=
  (pattern.splitOn '/').filterMap fun part =>
    if part = [] then none
    else if part = ['*'] then some [.segStar]
    else if 2 ≤ part.length ∧ part.all (· = '*') then some [.allStar]
    else some (translatePart part)

/-- The compiled anchored pattern of `Manifest.glob`: the stripped pattern is
translated piecewise and joined (with the `re.escape`d stripped dirname in
front) by slashes; an empty stripped pattern yields nothing. -/
def globCompile (pattern0 dirname0 : Str) : Option (List Rx) :=
  let pattern := stripChar '/' pattern0
  if pattern = [] then none
  else
    let d := stripChar '/' dirname0
    let joined := List.intercalate [Rx.ch '/'] (posixGlobTranslate pattern)
    some (if d = [] then joined else (d.map Rx.ch) ++ Rx.ch '/' :: joined)

namespace Manifest

/-- `Manifest.glob(pattern, dirname)` (with the default
`ignore_case=False`): every registered href that fully matches the compiled
pattern, in index order, resolved through the registry. -/
def glob (m : Manifest) (pattern dirname : Str) : List ItemRef :=
  match globCompile pattern dirname with
  | none => []
  | some rx =>
    m.hrefToId.filterMap fun p =>
      if rxMatch rx p.1 then
        match alGet m.reg p.2 with
        | some eid => some ⟨p.2, eid⟩
        | none => none
      else none

/-- `Manifest.rglob`. -/
def rglob (m : Manifest) (pattern dirname : Str) : List ItemRef :=
  let p := if pattern = [] then str "**" else joinpath2 (str "**") (lstripChar '/' pattern)
  m.glob p dirname

end Manifest

/-! ### Packing (`ePub.pack` / `write_oebps`) -/

/-- The slice of the `ePub` object that `write_oebps` reads: the manifest and
the location of the package descriptor. -/
structure Epub where
  m : Manifest
  opfDir : Str
  opfName : Str

inductive PackWarn
  | conflictsWithOpf (href : Str)
  | neverCreated (href : Str)
  | cantOpen (href : Str)
deriving DecidableEq, Repr

/-- `write_oebps`: walk `href_to_id` in order; an href colliding with the OPF
name, an entry with no handle, or a handle whose open raises `OSError`/
`LookupError` is excluded with a warning; every other resource's bytes are
written at `opf_dir/href`.  If anything was excluded the serialized manifest
is the pruned item list of a private copy of the tree — the live tree is
returned untouched.  Errors the source does not catch (e.g. a capability
`ValueError`) propagate. -/
def write_oebps (e : Epub) :
    Epub × Except Err (List (Str × Bytes) × List Element × List PackWarn) :=
  let loop := e.m.hrefToId.foldl
    (fun (acc : Except Err
        (List (Str × Bytes) × List Str × List Str × List PackWarn)) p =>
      match acc with
      | .error er => .error er
      | .ok (files, goodIds, badIds, warns) =>
        let href := p.1
        let id := p.2
        if href = e.opfName then
          .ok (files, goodIds, badIds ++ [id], warns ++ [.conflictsWithOpf href])
        else
          match (alGet e.m.hrefToFile href).join with
          | none => .ok (files, goodIds, badIds ++ [id], warns ++ [.neverCreated href])
          | some fl =>
            match (fl.openIO (str "rb") e.m.sto).2 with
            | .error .fileNotFoundError =>
              .ok (files, goodIds, badIds ++ [id], warns ++ [.cantOpen href])
            | .error .fileExistsError =>
              .ok (files, goodIds, badIds ++ [id], warns ++ [.cantOpen href])
            | .error .lookupError =>
              .ok (files, goodIds, badIds ++ [id], warns ++ [.cantOpen href])
            | .error er => .error er
            | .ok h =>
              match h.readAll e.m.sto with
              | .error er => .error er
              | .ok bytes =>
                .ok (files ++ [(joinpath2 e.opfDir href, bytes)],
                  goodIds ++ [id], badIds, warns))
    (.ok ([], [], [], []))
  match loop with
  | .error er => (e, .error er)
  | .ok (files, goodIds, badIds, warns) =>
    let root2 :=
      if ¬ badIds = [] then e.m.root.filter (fun el => el.attrId ∈ goodIds)
      else e.m.root
    (e, .ok (files, root2, warns))


/-! ### Lemmas about the dict model -/

section AList

variable {κ α : Type} [DecidableEq κ]

theorem alGet_alSet_self (l : List (κ × α)) (k : κ) (v : α) :
    alGet (alSet l k v) k = some v := by
  induction l with
  | nil => simp [alSet, alGet]
  | cons p t ih =>
    by_cases h : p.1 = k
    · simp [alSet, alGet, h]
    · simp [alSet, alGet, h, ih]

theorem alGet_alSet_ne (l : List (κ × α)) (k k' : κ) (v : α) (h : ¬ k' = k) :
    alGet (alSet l k v) k' = alGet l k' := by
  have h2 : ¬ k = k' := fun hh => h hh.symm
  induction l with
  | nil => simp [alSet, alGet, h2]
  | cons p t ih =>
    by_cases hp : p.1 = k
    · subst hp
      simp [alSet, alGet, h2, ih]
    · by_cases hp' : p.1 = k'
      · simp [alSet, alGet, hp, hp', h]
      · simp [alSet, alGet, hp, hp', ih]

theorem alGet_alErase_ne (l : List (κ × α)) (k k' : κ) (h : ¬ k' = k) :
    alGet (alErase l k) k' = alGet l k' := by
  have h2 : ¬ k = k' := fun hh => h hh.symm
  induction l with
  | nil => simp [alErase, alGet]
  | cons p t ih =>
    by_cases hp : p.1 = k
    · subst hp
      simp [alErase, alGet, h2]
    · by_cases hp' : p.1 = k'
      · simp [alErase, alGet, hp, hp', h]
      · simp [alErase, alGet, hp, hp', ih]

theorem alGet_eq_none_iff {l : List (κ × α)} {k : κ} :
    alGet l k = none ↔ ∀ p ∈ l, ¬ p.1 = k := by
  induction l with
  | nil => simp [alGet]
  | cons q t ih =>
    simp only [alGet, List.mem_cons]
    by_cases hq : q.1 = k
    · simp only [hq, if_pos]
      constructor
      · intro h; cases h
      · intro h; exact absurd hq (h q (Or.inl rfl))
    · simp only [hq, if_neg, not_false_iff, ih]
      constructor
      · intro h p hp
        rcases hp with rfl | hp
        · exact hq
        · exact h p hp
      · intro h p hp
        exact h p (Or.inr hp)

theorem alGet_some_mem {l : List (κ × α)} {k : κ} {v : α}
    (h : alGet l k = some v) : (k, v) ∈ l := by
  induction l with
  | nil => simp [alGet] at h
  | cons q t ih =>
    obtain ⟨a, b⟩ := q
    by_cases hq : a = k
    · subst hq
      simp only [alGet, if_pos] at h
      simp only [Option.some.injEq] at h
      subst h
      exact List.mem_cons_self _ _
    · simp only [alGet, hq, if_neg, not_false_iff] at h
      exact List.mem_cons_of_mem _ (ih h)

theorem mem_alGet {l : List (κ × α)} {k : κ} {v : α}
    (hm : (k, v) ∈ l) (hn : (l.map Prod.fst).Nodup) : alGet l k = some v := by
  induction l with
  | nil => simp at hm
  | cons q t ih =>
    simp only [List.map_cons, List.nodup_cons, List.mem_map, not_exists, not_and] at hn
    rcases List.mem_cons.mp hm with rfl | hm2
    · simp [alGet]
    · have hq : ¬ q.1 = k := by
        intro he
        exact hn.1 (k, v) hm2 (Eq.symm he)
      simp only [alGet, hq, if_neg, not_false_iff]
      exact ih hm2 hn.2

theorem mem_alSet {l : List (κ × α)} {k : κ} {v : α} {p : κ × α}
    (hn : (l.map Prod.fst).Nodup) (h : p ∈ alSet l k v) :
    p = (k, v) ∨ (p ∈ l ∧ ¬ p.1 = k) := by
  induction l with
  | nil => simp [alSet] at h; simp [h]
  | cons q t ih =>
    simp only [List.map_cons, List.nodup_cons, List.mem_map, not_exists, not_and] at hn
    by_cases hq : q.1 = k
    · subst hq
      simp only [alSet, if_pos, List.mem_cons] at h
      rcases h with rfl | h
      · left; rfl
      · right
        refine ⟨List.mem_cons_of_mem _ h, ?_⟩
        intro he
        exact hn.1 p h he
    · simp only [alSet, hq, if_neg, not_false_iff, List.mem_cons] at h
      rcases h with rfl | h
      · right; exact ⟨List.mem_cons_self _ _, hq⟩
      · rcases ih hn.2 h with h2 | h2
        · left; exact h2
        · right; exact ⟨List.mem_cons_of_mem _ h2.1, h2.2⟩

theorem keys_alSet (l : List (κ × α)) (k : κ) (v : α) :
    (alSet l k v).map Prod.fst
      = if (alGet l k).isNone then l.map Prod.fst ++ [k] else l.map Prod.fst := by
  induction l with
  | nil => simp [alSet, alGet]
  | cons q t ih =>
    by_cases hq : q.1 = k
    · simp [alSet, alGet, hq]
    · simp only [alSet, alGet, hq, if_neg, not_false_iff, List.map_cons, ih]
      by_cases hg : (alGet t k).isNone <;> simp [hg]

theorem nodup_alSet {l : List (κ × α)} (k : κ) (v : α)
    (hn : (l.map Prod.fst).Nodup) : ((alSet l k v).map Prod.fst).Nodup := by
  rw [keys_alSet]
  by_cases hg : (alGet l k).isNone
  · simp only [hg, if_pos]
    rw [List.nodup_append]
    refine ⟨hn, List.nodup_singleton _, ?_⟩
    intro a ha hb
    simp only [List.mem_singleton] at hb
    subst hb
    simp only [List.mem_map] at ha
    obtain ⟨p, hp, hpk⟩ := ha
    exact (alGet_eq_none_iff.mp (Option.isNone_iff_eq_none.mp hg) p hp) hpk
  · simp [hg, hn]

theorem alSet_eq_append {l : List (κ × α)} {k : κ} (v : α)
    (h : alGet l k = none) : alSet l k v = l ++ [(k, v)] := by
  induction l with
  | nil => simp [alSet]
  | cons q t ih =>
    by_cases hq : q.1 = k
    · simp [alGet, hq] at h
    · simp only [alGet, hq, if_neg, not_false_iff] at h
      simp [alSet, hq, ih h]

theorem mem_alErase_keys {l : List (κ × α)} {k : κ}
    (hn : (l.map Prod.fst).Nodup) : ∀ p ∈ alErase l k, ¬ p.1 = k := by
  induction l with
  | nil => simp [alErase]
  | cons q t ih =>
    simp only [List.map_cons, List.nodup_cons, List.mem_map, not_exists, not_and] at hn
    by_cases hq : q.1 = k
    · subst hq
      simp only [alErase, if_pos]
      intro p hp he
      exact hn.1 p hp he
    · simp only [alErase, hq, if_neg, not_false_iff]
      intro p hp
      rcases List.mem_cons.mp hp with rfl | hp2
      · exact hq
      · exact ih hn.2 p hp2

theorem alGet_alErase_self {l : List (κ × α)} (k : κ)
    (hn : (l.map Prod.fst).Nodup) : alGet (alErase l k) k = none :=
  alGet_eq_none_iff.mpr (mem_alErase_keys hn)

theorem mem_alErase {l : List (κ × α)} {k : κ} {p : κ × α} (h : p ∈ alErase l k) :
    p ∈ l := by
  induction l with
  | nil => simp [alErase] at h
  | cons q t ih =>
    by_cases hq : q.1 = k
    · simp only [alErase, hq, if_pos] at h
      exact List.mem_cons_of_mem _ h
    · simp only [alErase, hq, if_neg, not_false_iff, List.mem_cons] at h
      rcases h with h | h
      · exact h ▸ List.mem_cons_self _ _
      · exact List.mem_cons_of_mem _ (ih h)

theorem keys_alErase_sublist (l : List (κ × α)) (k : κ) :
    ((alErase l k).map Prod.fst).Sublist (l.map Prod.fst) := by
  induction l with
  | nil => simp [alErase]
  | cons q t ih =>
    by_cases hq : q.1 = k
    · simp only [alErase, hq, if_pos, List.map_cons]
      exact List.sublist_cons_self _ _
    · simp only [alErase, hq, if_neg, not_false_iff, List.map_cons]
      exact ih.cons₂ _

theorem nodup_alErase {l : List (κ × α)} (k : κ)
    (h : (l.map Prod.fst).Nodup) : ((alErase l k).map Prod.fst).Nodup :=
  (keys_alErase_sublist l k).nodup h

theorem snds_alErase_sublist (l : List (κ × α)) (k : κ) :
    ((alErase l k).map Prod.snd).Sublist (l.map Prod.snd) := by
  induction l with
  | nil => simp [alErase]
  | cons q t ih =>
    by_cases hq : q.1 = k
    · simp only [alErase, hq, if_pos, List.map_cons]
      exact List.sublist_cons_self _ _
    · simp only [alErase, hq, if_neg, not_false_iff, List.map_cons]
      exact ih.cons₂ _

end AList


/-! ### The index-consistency invariant (claim C1) -/

/-- Mutual consistency of the three indices of a `Manifest`, together with
the freshness bound on element identities: ids unique, hrefs unique (both in
`_href_to_id` and `_href_to_file`), element identities unique; every
registered href resolves through `_href_to_id` and the registry to a live
`<item>` element whose href attribute is exactly that href (percent-quoted);
every registry entry's element carries that id and maps back through its
unquoted href attribute to the same id (so no two live resources share one
path); every tree element is registered under its id attribute; every
`_href_to_file` key is a registered href. -/
def Inv (m : Manifest) : Prop :=
  (m.reg.map Prod.fst).Nodup ∧
  (m.reg.map Prod.snd).Nodup ∧
  (m.hrefToId.map Prod.fst).Nodup ∧
  (m.hrefToFile.map Prod.fst).Nodup ∧
  (m.root.map Element.eid).Nodup ∧
  (∀ p ∈ m.hrefToId, ∃ el ∈ m.root,
    alGet m.reg p.2 = some el.eid ∧ el.attrHref = pquote p.1) ∧
  (∀ q ∈ m.reg, ∃ el ∈ m.root, el.eid = q.2 ∧ el.attrId = q.1 ∧
    alGet m.hrefToId (punquote el.attrHref) = some q.1) ∧
  (∀ el ∈ m.root, alGet m.reg el.attrId = some el.eid) ∧
  (∀ p ∈ m.hrefToFile, (alGet m.hrefToId p.1).isSome = true) ∧
  (∀ el ∈ m.root, el.eid < m.eidCtr) ∧
  (∀ q ∈ m.reg, q.2 < m.eidCtr)

theorem nodup_append_singleton {α : Type} {l : List α} {a : α}
    (hl : l.Nodup) (ha : a ∉ l) : (l ++ [a]).Nodup := by
  rw [List.nodup_append]
  exact ⟨hl, List.nodup_singleton _, by
    intro x hx hx2
    simp only [List.mem_singleton] at hx2
    subst hx2
    exact ha hx⟩

/-- Inserting a fresh triple (the success path of `Manifest.add`) preserves
the invariant. -/
theorem inv_insert (m : Manifest) (hm : Inv m) (href id : Str) (fl : File) (mt : Str)
    (h2 : (alGet m.hrefToId href).isNone = true)
    (h3 : (alGet m.reg id).isNone = true) (st : Sto) (uc : Nat) :
    Inv { root := m.root ++ [⟨m.eidCtr, id, pquote href, mt⟩],
          reg := alSet m.reg id m.eidCtr,
          hrefToId := alSet m.hrefToId href id,
          hrefToFile := alSet m.hrefToFile href (some fl),
          sto := st, uuidCtr := uc, eidCtr := m.eidCtr + 1, genId := m.genId } := by
  obtain ⟨A1, A2, A3, A4, A5, B1, B2, B3, B4, C1e, C2e⟩ := hm
  have h2' : alGet m.hrefToId href = none := Option.isNone_iff_eq_none.mp h2
  have h3' : alGet m.reg id = none := Option.isNone_iff_eq_none.mp h3
  unfold Inv
  refine ⟨?_, ?_, ?_, ?_, ?_, ?_, ?_, ?_, ?_, ?_, ?_⟩
  · exact nodup_alSet _ _ A1
  · show ((alSet m.reg id m.eidCtr).map Prod.snd).Nodup
    rw [alSet_eq_append _ h3', List.map_append]
    apply nodup_append_singleton A2
    intro hmem
    simp only [List.mem_map] at hmem
    obtain ⟨q, hq, he⟩ := hmem
    exact absurd (he ▸ C2e q hq) (lt_irrefl _)
  · exact nodup_alSet _ _ A3
  · exact nodup_alSet _ _ A4
  · show ((m.root ++ [(⟨m.eidCtr, id, pquote href, mt⟩ : Element)]).map Element.eid).Nodup
    rw [List.map_append]
    apply nodup_append_singleton A5
    intro hmem
    simp only [List.mem_map] at hmem
    obtain ⟨el, hel, he⟩ := hmem
    exact absurd (he ▸ C1e el hel) (lt_irrefl _)
  · intro p hp
    rcases mem_alSet A3 hp with heq | ⟨hpold, hpne⟩
    · subst heq
      refine ⟨⟨m.eidCtr, id, pquote href, mt⟩,
        List.mem_append_right _ (List.mem_singleton.mpr rfl), ?_, rfl⟩
      exact alGet_alSet_self _ _ _
    · obtain ⟨el0, hel0, hg, hattr⟩ := B1 p hpold
      refine ⟨el0, List.mem_append_left _ hel0, ?_, hattr⟩
      have hne2 : ¬ p.2 = id := by
        intro he
        rw [he, h3'] at hg
        cases hg
      rw [alGet_alSet_ne _ _ _ _ hne2]
      exact hg
  · intro q hq
    rcases mem_alSet A1 hq with heq | ⟨hqold, hqne⟩
    · subst heq
      refine ⟨⟨m.eidCtr, id, pquote href, mt⟩,
        List.mem_append_right _ (List.mem_singleton.mpr rfl), rfl, rfl, ?_⟩
      rw [punquote_pquote]
      exact alGet_alSet_self _ _ _
    · obtain ⟨el0, hel0, he1, he2, hg⟩ := B2 q hqold
      refine ⟨el0, List.mem_append_left _ hel0, he1, he2, ?_⟩
      have hne3 : ¬ punquote el0.attrHref = href := by
        intro he
        rw [he, h2'] at hg
        cases hg
      rw [alGet_alSet_ne _ _ _ _ hne3]
      exact hg
  · intro el hel
    rcases List.mem_append.mp hel with h | h
    · have hne : ¬ el.attrId = id := by
        intro he
        have hb := B3 el h
        rw [he, h3'] at hb
        cases hb
      rw [alGet_alSet_ne _ _ _ _ hne]
      exact B3 el h
    · simp only [List.mem_singleton] at h
      subst h
      exact alGet_alSet_self _ _ _
  · intro p hp
    rcases mem_alSet A4 hp with heq | ⟨hpold, hpne⟩
    · subst heq
      rw [alGet_alSet_self]
      rfl
    · rw [alGet_alSet_ne _ _ _ _ hpne]
      exact B4 p hpold
  · intro el hel
    rcases List.mem_append.mp hel with h | h
    · exact Nat.lt_trans (C1e el h) (Nat.lt_succ_self _)
    · simp only [List.mem_singleton] at h
      subst h
      exact Nat.lt_succ_self _
  · intro q hq
    rcases mem_alSet A1 hq with heq | ⟨hqold, _⟩
    · subst heq
      exact Nat.lt_succ_self _
    · exact Nat.lt_trans (C2e q hqold) (Nat.lt_succ_self _)

/-- `Manifest.add` preserves the index-consistency invariant, on success and
on failure. -/
theorem inv_add (m : Manifest) (hm : Inv m) (href0 : Str) (src : AddSource)
    (id? : Option Str) (mt? : Option Str) : Inv (m.add href0 src id? mt?).1 := by
  unfold Manifest.add
  by_cases h1 : stripChar '/' href0 = []
  · simp only [h1, if_pos]
    exact hm
  · simp only [h1, if_neg, not_false_iff]
    by_cases h2 : (alGet m.hrefToId (stripChar '/' href0)).isNone
    · simp only [h2, not_true, if_neg, not_false_iff, ite_not]
      split
      · next h3 =>
        rcases src with _ | f | data
        · exact inv_insert m hm _ _ _ _ h2 (by simpa using h3)
            m.sto (m.uuidCtr + 1)
        · exact inv_insert m hm _ _ _ _ h2 (by simpa using h3)
            m.sto (m.uuidCtr + 1)
        · exact inv_insert m hm _ _ _ _ h2 (by simpa using h3)
            {m.sto with workfs := alSet m.sto.workfs (uuidStr m.uuidCtr) data}
            (m.uuidCtr + 1)
      · exact hm
    · simp only [h2, not_false_iff, if_pos, ite_not]
      exact hm


/-- `Inv` only constrains the indices, the tree and the element counter. -/
theorem inv_sto (m : Manifest) (st : Sto) (hm : Inv m) : Inv {m with sto := st} := hm

theorem inv_uuid (m : Manifest) (n : Nat) (hm : Inv m) : Inv {m with uuidCtr := n} := hm

theorem inv_fileRemove (m : Manifest) (fl : File) (hm : Inv m) :
    Inv (Manifest.fileRemove m fl) := by
  unfold Manifest.fileRemove
  rcases fl.backing with n | p | k
  all_goals exact hm

/-- Updating the handle of a registered href preserves the invariant. -/
theorem inv_setFile (m : Manifest) (hm : Inv m) (href : Str) (v : Option File)
    (h : (alGet m.hrefToId href).isSome = true) :
    Inv {m with hrefToFile := alSet m.hrefToFile href v} := by
  obtain ⟨A1, A2, A3, A4, A5, B1, B2, B3, B4, C1e, C2e⟩ := hm
  refine ⟨A1, A2, A3, ?_, A5, B1, B2, B3, ?_, C1e, C2e⟩
  · exact nodup_alSet _ _ A4
  · intro p hp
    rcases mem_alSet A4 hp with heq | ⟨hpold, hpne⟩
    · subst heq
      exact h
    · exact B4 p hpold

/-- Two list members with equal images under an injective-on-the-list map
are equal. -/
theorem mem_nodup_map_eq {α β : Type} {l : List α} {f : α → β}
    (h : (l.map f).Nodup) {a b : α} (ha : a ∈ l) (hb : b ∈ l) (hf : f a = f b) :
    a = b := by
  induction l with
  | nil => simp at ha
  | cons c t ih =>
    simp only [List.map_cons, List.nodup_cons] at h
    rcases List.mem_cons.mp ha with rfl | hm1 <;> rcases List.mem_cons.mp hb with rfl | hm2
    · rfl
    · exact absurd (by rw [hf]; exact List.mem_map_of_mem f hm2) h.1
    · exact absurd (by rw [← hf]; exact List.mem_map_of_mem f hm1) h.1
    · exact ih h.2 hm1 hm2

/-- Under the invariant a resource id is registered under at most one path. -/
theorem href_unique (m : Manifest) (hm : Inv m) {h1 h2 id : Str}
    (ha : alGet m.hrefToId h1 = some id) (hb : alGet m.hrefToId h2 = some id) :
    h1 = h2 := by
  obtain ⟨A1, A2, A3, A4, A5, B1, B2, B3, B4, C1e, C2e⟩ := hm
  obtain ⟨e1, he1, hg1, hat1⟩ := B1 (h1, id) (alGet_some_mem ha)
  obtain ⟨e2, he2, hg2, hat2⟩ := B1 (h2, id) (alGet_some_mem hb)
  have heid : e1.eid = e2.eid := by
    rw [hg1] at hg2
    exact Option.some.inj hg2
  have hsame : e1 = e2 := mem_nodup_map_eq A5 he1 he2 heid
  apply pquote_injective
  rw [← hat1, hsame, hat2]

/-- Under the invariant the tree element of an identity is unique, so
`find?` returns exactly the registered element. -/
theorem find_eid_unique (root : List Element) (h5 : (root.map Element.eid).Nodup)
    {el : Element} (hel : el ∈ root) : root.find? (·.eid = el.eid) = some el := by
  induction root with
  | nil => simp at hel
  | cons a t ih =>
    simp only [List.map_cons, List.nodup_cons] at h5
    rcases List.mem_cons.mp hel with rfl | hmem
    · rw [List.find?_cons_of_pos _ (by simp)]
    · have hne : ¬ a.eid = el.eid := by
        intro he
        exact h5.1 (by rw [he]; exact List.mem_map_of_mem Element.eid hmem)
      rw [List.find?_cons_of_neg _ (by simp [hne])]
      exact ih h5.2 hmem

/-- Deleting a consistent triple (the core of `remove` and `pop`) preserves
the invariant. -/
theorem inv_erase (m : Manifest) (hm : Inv m) (href id : Str) (eid : Nat)
    (hg : alGet m.hrefToId href = some id) (hr : alGet m.reg id = some eid) :
    Inv { root := m.root.filter (fun el => ¬ el.eid = eid),
          reg := alErase m.reg id,
          hrefToId := alErase m.hrefToId href,
          hrefToFile := alErase m.hrefToFile href,
          sto := m.sto, uuidCtr := m.uuidCtr, eidCtr := m.eidCtr,
          genId := m.genId } := by
  obtain ⟨A1, A2, A3, A4, A5, B1, B2, B3, B4, C1e, C2e⟩ := hm
  have hmm : Inv m := ⟨A1, A2, A3, A4, A5, B1, B2, B3, B4, C1e, C2e⟩
  unfold Inv
  refine ⟨nodup_alErase _ A1, (snds_alErase_sublist _ _).nodup A2,
    nodup_alErase _ A3, nodup_alErase _ A4,
    ((List.filter_sublist m.root).map Element.eid).nodup A5, ?_, ?_, ?_, ?_, ?_, ?_⟩
  · intro p hp
    have hpold := mem_alErase hp
    have hpne := mem_alErase_keys A3 p hp
    obtain ⟨el1, hel1, hgp, hattr⟩ := B1 p hpold
    have hpid : ¬ p.2 = id := by
      intro he
      have hpg : alGet m.hrefToId p.1 = some id := by
        rw [← he]
        exact mem_alGet (by exact (Prod.mk.eta ▸ hpold)) A3
      exact hpne (href_unique m hmm hpg hg)
    have heln : ¬ el1.eid = eid := by
      intro he
      have h1m := alGet_some_mem hgp
      have h2m := alGet_some_mem hr
      have := mem_nodup_map_eq A2 h1m h2m (by simpa using he)
      exact hpid (congrArg Prod.fst this)
    refine ⟨el1, List.mem_filter.mpr ⟨hel1, by simpa using heln⟩, ?_, hattr⟩
    rw [alGet_alErase_ne _ _ _ hpid]
    exact hgp
  · intro q hq
    have hqold := mem_alErase hq
    have hqne := mem_alErase_keys A1 q hq
    obtain ⟨el1, hel1, he1, he2, hgq⟩ := B2 q hqold
    have hq2 : ¬ q.2 = eid := by
      intro he
      have h1m : (q.1, q.2) ∈ m.reg := Prod.mk.eta ▸ hqold
      have h2m := alGet_some_mem hr
      have := mem_nodup_map_eq A2 h1m h2m (by simpa using he)
      exact hqne (congrArg Prod.fst this)
    have heln : ¬ el1.eid = eid := by
      rw [he1]; exact hq2
    refine ⟨el1, List.mem_filter.mpr ⟨hel1, by simpa using heln⟩, he1, he2, ?_⟩
    have hne : ¬ punquote el1.attrHref = href := by
      intro he
      rw [he, hg] at hgq
      exact hqne (Option.some.inj hgq).symm
    rw [alGet_alErase_ne _ _ _ hne]
    exact hgq
  · intro el hel
    have hel2 := List.mem_filter.mp hel
    have heln : ¬ el.eid = eid := by simpa using hel2.2
    have hne : ¬ el.attrId = id := by
      intro he
      have hb := B3 el hel2.1
      rw [he, hr] at hb
      exact heln (Option.some.inj hb).symm
    rw [alGet_alErase_ne _ _ _ hne]
    exact B3 el hel2.1
  · intro p hp
    have hpold := mem_alErase hp
    have hpne := mem_alErase_keys A4 p hp
    rw [alGet_alErase_ne _ _ _ hpne]
    exact B4 p hpold
  · intro el hel
    exact C1e el (List.mem_filter.mp hel).1
  · intro q hq
    exact C2e q (mem_alErase hq)


/-- `Manifest.remove` preserves the index-consistency invariant. -/
theorem inv_remove (m : Manifest) (hm : Inv m) (href0 : Str) :
    Inv (m.remove href0).1 := by
  unfold Manifest.remove
  by_cases h1 : stripChar '/' href0 = []
  · simp only [h1, if_pos]
    exact hm
  · simp only [h1, if_neg, not_false_iff]
    cases hg : alGet m.hrefToId (stripChar '/' href0) with
    | none => exact hm
    | some id =>
      obtain ⟨el, hel, hgr, hattr⟩ :=
        hm.2.2.2.2.2.1 _ (alGet_some_mem hg)
      dsimp only
      rw [hgr]
      have hInv3 := inv_erase m hm (stripChar '/' href0) id el.eid hg hgr
      split
      · split
        · exact inv_fileRemove _ _ hInv3
        · exact hInv3
      · exact hInv3

/-- `Manifest.pop` preserves the index-consistency invariant. -/
theorem inv_pop (m : Manifest) (hm : Inv m) (id : Str) (hasDefault : Bool) :
    Inv (m.pop id hasDefault).1 := by
  unfold Manifest.pop
  cases hr : alGet m.reg id with
  | none =>
    cases hasDefault
    · exact hm
    · exact hm
  | some eid =>
    obtain ⟨el2, hel2, he1, he2, hgq⟩ :=
      hm.2.2.2.2.2.2.1 _ (alGet_some_mem hr)
    dsimp only at he1 he2 hgq
    have hfind : m.root.find? (·.eid = eid) = some el2 := by
      rw [← he1]
      exact find_eid_unique m.root hm.2.2.2.2.1 hel2
    dsimp only
    rw [hfind]
    have hInv3 := inv_erase m hm (punquote el2.attrHref) id eid hgq
      (by rw [← he1] at hr ⊢; exact hr)
    split
    · next heq => exact Option.noConfusion heq
    · next el heq =>
      have hee := Option.some.inj heq
      subst hee
      split
      · split
        · exact inv_fileRemove _ _ hInv3
        · exact hInv3
      · exact hInv3

/-- What `pop` does to `_href_to_id` under the invariant: it erases exactly
the popped id's path. -/
theorem pop_spec (m : Manifest) (hm : Inv m) (did : Str) (eid : Nat)
    (hr : alGet m.reg did = some eid) :
    ∃ href', alGet m.hrefToId href' = some did ∧
      (m.pop did false).1.hrefToId = alErase m.hrefToId href' := by
  obtain ⟨el2, hel2, he1, he2, hgq⟩ :=
    hm.2.2.2.2.2.2.1 _ (alGet_some_mem hr)
  dsimp only at he1 he2 hgq
  refine ⟨punquote el2.attrHref, hgq, ?_⟩
  unfold Manifest.pop
  rw [hr]
  have hfind : m.root.find? (·.eid = eid) = some el2 := by
    rw [← he1]
    exact find_eid_unique m.root hm.2.2.2.2.1 hel2
  dsimp only
  rw [hfind]
  split
  · next heq => exact Option.noConfusion heq
  · next el heq =>
    have hee := Option.some.inj heq
    subst hee
    split
    · split
      · unfold Manifest.fileRemove
        split <;> rfl
      · rfl
    · rfl

/-- Re-quoting one element's href attribute does not disturb the element
identities. -/
theorem eid_map_requote (root : List Element) (eid : Nat) (s : Str) :
    (root.map (fun el' =>
        if el'.eid = eid then {el' with attrHref := s} else el')).map Element.eid
      = root.map Element.eid := by
  rw [List.map_map]
  congr 1
  funext x
  by_cases hx : x.eid = eid <;> simp [hx]

/-- The success state of `Manifest._rename` — `_href_to_id` key moved, the
element's href attribute re-quoted, `_href_to_file` slot moved — satisfies
the invariant when the destination path was free. -/
theorem inv_renameState (m : Manifest) (hm : Inv m) (href dest id : Str)
    (hid : alGet m.hrefToId href = some id)
    (hdest : alGet m.hrefToId dest = none) {eid : Nat}
    (hge : alGet m.reg id = some eid) :
    Inv {m with
      hrefToId := alSet (alErase m.hrefToId href) dest id,
      root := m.root.map (fun el' =>
        if el'.eid = eid then {el' with attrHref := pquote dest} else el'),
      hrefToFile := alSet (alErase m.hrefToFile href) dest
        ((alGet m.hrefToFile href).join)} := by
  obtain ⟨A1, A2, A3, A4, A5, B1, B2, B3, B4, C1e, C2e⟩ := hm
  have hm' : Inv m := ⟨A1, A2, A3, A4, A5, B1, B2, B3, B4, C1e, C2e⟩
  obtain ⟨el, hel, hgeel, hha⟩ := B1 (href, id) (alGet_some_mem hid)
  dsimp only at hgeel hha
  have heid : eid = el.eid := by
    rw [hge] at hgeel
    exact Option.some.inj hgeel
  subst heid
  have hdh : ¬ dest = href := by
    intro h
    rw [h, hid] at hdest
    exact Option.noConfusion hdest
  have hFdest : alGet m.hrefToFile dest = none := by
    rw [alGet_eq_none_iff]
    intro p hp he
    have hB := B4 p hp
    rw [he, hdest] at hB
    simp at hB
  unfold Inv
  refine ⟨A1, A2, ?_, ?_, ?_, ?_, ?_, ?_, ?_, ?_, C2e⟩
  · exact nodup_alSet _ _ (nodup_alErase _ A3)
  · exact nodup_alSet _ _ (nodup_alErase _ A4)
  · rw [eid_map_requote]
    exact A5
  · intro p hp
    rcases mem_alSet (nodup_alErase _ A3) hp with rfl | ⟨hpm, hpne⟩
    · refine ⟨_, List.mem_map_of_mem
        (fun el' => if el'.eid = el.eid then {el' with attrHref := pquote dest} else el') hel,
        ?_, ?_⟩
      · dsimp only
        rw [if_pos rfl]
        exact hge
      · dsimp only
        rw [if_pos rfl]
    · have hpmem := mem_alErase hpm
      have hpnh := mem_alErase_keys A3 p hpm
      obtain ⟨el1, hel1, hg1, ha1⟩ := B1 p hpmem
      have hne1 : ¬ el1.eid = el.eid := by
        intro he
        have hsame : el1 = el := mem_nodup_map_eq A5 hel1 hel he
        rw [hsame] at ha1
        exact hpnh (pquote_injective (ha1.symm.trans hha))
      refine ⟨_, List.mem_map_of_mem
        (fun el' => if el'.eid = el.eid then {el' with attrHref := pquote dest} else el') hel1,
        ?_, ?_⟩
      · dsimp only
        rw [if_neg hne1]
        exact hg1
      · dsimp only
        rw [if_neg hne1]
        exact ha1
  · intro q hq
    obtain ⟨el1, hel1, he1, he2, hgq⟩ := B2 q hq
    by_cases hqe : el1.eid = el.eid
    · have hsame : el1 = el := mem_nodup_map_eq A5 hel1 hel hqe
      subst hsame
      rw [hha, punquote_pquote, hid] at hgq
      have hq1 : id = q.1 := Option.some.inj hgq
      refine ⟨_, List.mem_map_of_mem
        (fun el' => if el'.eid = el1.eid then {el' with attrHref := pquote dest} else el') hel1,
        ?_, ?_, ?_⟩
      · dsimp only
        rw [if_pos rfl]
        exact he1
      · dsimp only
        rw [if_pos rfl]
        exact he2
      · dsimp only
        rw [if_pos rfl]
        show alGet (alSet (alErase m.hrefToId href) dest id) (punquote (pquote dest))
          = some q.1
        rw [punquote_pquote, alGet_alSet_self, hq1]
    · have hnd : ¬ punquote el1.attrHref = dest := by
        intro he
        rw [he, hdest] at hgq
        exact Option.noConfusion hgq
      have hnh : ¬ punquote el1.attrHref = href := by
        intro he
        rw [he, hid] at hgq
        have hq1 : id = q.1 := Option.some.inj hgq
        have hgq2 : alGet m.reg q.1 = some q.2 := mem_alGet (Prod.mk.eta ▸ hq) A1
        rw [← hq1, hge] at hgq2
        exact hqe (he1.trans (Option.some.inj hgq2).symm)
      refine ⟨_, List.mem_map_of_mem
        (fun el' => if el'.eid = el.eid then {el' with attrHref := pquote dest} else el') hel1,
        ?_, ?_, ?_⟩
      · dsimp only
        rw [if_neg hqe]
        exact he1
      · dsimp only
        rw [if_neg hqe]
        exact he2
      · dsimp only
        rw [if_neg hqe]
        rw [alGet_alSet_ne _ _ _ _ hnd, alGet_alErase_ne _ _ _ hnh]
        exact hgq
  · intro el' hel'
    obtain ⟨x, hx, rfl⟩ := List.mem_map.mp hel'
    by_cases hxe : x.eid = el.eid
    · dsimp only
      rw [if_pos hxe]
      exact B3 x hx
    · dsimp only
      rw [if_neg hxe]
      exact B3 x hx
  · intro p hp
    rcases mem_alSet (nodup_alErase _ A4) hp with rfl | ⟨hpm, hpne⟩
    · dsimp only
      rw [alGet_alSet_self]
      rfl
    · have hpmem := mem_alErase hpm
      have hpnh := mem_alErase_keys A4 p hpm
      have hB := B4 p hpmem
      have hnd : ¬ p.1 = dest := by
        intro he
        rw [he, hdest] at hB
        simp at hB
      rw [alGet_alSet_ne _ _ _ _ hnd, alGet_alErase_ne _ _ _ hpnh]
      exact hB
  · intro el' hel'
    obtain ⟨x, hx, rfl⟩ := List.mem_map.mp hel'
    by_cases hxe : x.eid = el.eid
    · dsimp only
      rw [if_pos hxe]
      exact C1e x hx
    · dsimp only
      rw [if_neg hxe]
      exact C1e x hx

/-- `Manifest._rename` preserves the invariant — whether it returns or
raises — provided the destination path is free and any explicitly passed
item is the source path's own element. -/
theorem inv_renameRaw (m : Manifest) (hm : Inv m) (itemEid : Option Nat)
    (href dest : Str) (hdest : alGet m.hrefToId dest = none)
    (hit : ∀ e, itemEid = some e → ∀ i, alGet m.hrefToId href = some i →
      alGet m.reg i = some e) :
    Inv (m.renameRaw itemEid href dest).1 := by
  unfold Manifest.renameRaw
  cases hid : alGet m.hrefToId href with
  | none => exact hm
  | some id =>
    obtain ⟨el, hel, hge, hha⟩ := hm.2.2.2.2.2.1 (href, id) (alGet_some_mem hid)
    dsimp only at hge hha
    cases itemEid with
    | none =>
      dsimp only
      rw [hge]
      split
      · next heq => exact Option.noConfusion heq
      · next eid2 heq =>
        cases Option.some.inj heq
        exact inv_renameState m hm href dest id hid hdest hge
    | some e =>
      have he2 : alGet m.reg id = some e := hit e rfl id hid
      have he3 : e = el.eid := by
        rw [hge] at he2
        exact (Option.some.inj he2).symm
      subst he3
      dsimp only
      exact inv_renameState m hm href dest id hid hdest hge

/-- `Inv` only depends on the indices, the tree and the element counter. -/
theorem inv_fields (m m' : Manifest) (hm : Inv m)
    (hroot : m'.root = m.root) (hreg : m'.reg = m.reg)
    (hh2i : m'.hrefToId = m.hrefToId) (hh2f : m'.hrefToFile = m.hrefToFile)
    (hctr : m'.eidCtr = m.eidCtr) : Inv m' := by
  unfold Inv at hm ⊢
  rw [hroot, hreg, hh2i, hh2f, hctr]
  exact hm

/-- A fold preserves any invariant its step preserves. -/
theorem foldl_preserve {σ α : Type} (P : σ → Prop) (f : σ → α → σ)
    (hf : ∀ s a, P s → P (f s a)) : ∀ (l : List α) (s : σ), P s → P (l.foldl f s) := by
  intro l
  induction l with
  | nil =>
    intro s hs
    exact hs
  | cons a t ih =>
    intro s hs
    exact ih _ (hf s a hs)

/-- `Manifest.open` preserves the invariant on every path: every state it
can return differs from the entry state only in scratch storage, the uuid
counter, and (possibly) a re-pointed `_href_to_file` slot of a registered
href. -/
theorem inv_mopen (m : Manifest) (hm : Inv m) (href0 mode : Str) :
    Inv (m.mopen href0 mode).1 := by
  unfold Manifest.mopen Manifest.finalOpen
  dsimp only
  split
  · exact hm
  split
  · exact hm
  cases hreg : alGet m.hrefToId (stripChar '/' href0) with
  | some id0 =>
    have hsome : (alGet m.hrefToId (stripChar '/' href0)).isSome = true := by
      rw [hreg]
      rfl
    split
    · split
      · exact hm
      split
      · exact inv_fields _ _ (inv_setFile m hm _ _ hsome) rfl rfl rfl rfl rfl
      · split
        · exact hm
        split
        · exact inv_fields _ _ (inv_setFile m hm _ _ hsome) rfl rfl rfl rfl rfl
        split
        · split
          · exact hm
          · exact inv_fields _ _ (inv_setFile m hm _ _ hsome) rfl rfl rfl rfl rfl
        · exact hm
        · split
          · exact hm
          · exact inv_fields _ _ (inv_setFile m hm _ _ hsome) rfl rfl rfl rfl rfl
    · next heq => exact Option.noConfusion heq
  | none =>
    split
    · next heq => exact Option.noConfusion heq
    · split
      · exact hm
      rcases hadd : m.add (stripChar '/' href0) .auto none none with ⟨m1, e1⟩
      have hm1 : Inv m1 := by
        have h := inv_add m hm (stripChar '/' href0) .auto none none
        rw [hadd] at h
        exact h
      cases e1 with
      | error e => exact hm1
      | ok u =>
        split
        · next m2 e2 heq => exact absurd heq (by simp)
        · next m2 a2 heq =>
          simp only [Prod.mk.injEq] at heq
          obtain ⟨rfl, -⟩ := heq
          split
          · exact hm1
          · exact hm1

/-- `Manifest.read` preserves the invariant. -/
theorem inv_mread (m : Manifest) (hm : Inv m) (href : Str) :
    Inv (m.mread href).1 := by
  unfold Manifest.mread
  rcases ho : m.mopen href (str "rb") with ⟨m1, e1⟩
  have hm1 : Inv m1 := by
    have h := inv_mopen m hm href (str "rb")
    rw [ho] at h
    exact h
  cases e1 with
  | error e => exact hm1
  | ok h =>
    split
    · next m2 e2 heq => exact absurd heq (by simp)
    · next m2 h2 heq =>
      simp only [Prod.mk.injEq] at heq
      obtain ⟨rfl, -⟩ := heq
      split <;> exact hm1

/-- `Manifest.write` preserves the invariant. -/
theorem inv_mwrite (m : Manifest) (hm : Inv m) (href : Str) (data : Bytes) :
    Inv (m.mwrite href data).1 := by
  unfold Manifest.mwrite
  rcases ho : m.mopen href (str "wb") with ⟨m1, e1⟩
  have hm1 : Inv m1 := by
    have h := inv_mopen m hm href (str "wb")
    rw [ho] at h
    exact h
  cases e1 with
  | error e => exact hm1
  | ok h => exact hm1

/-- `Manifest.read_text` preserves the invariant. -/
theorem inv_read_text (m : Manifest) (hm : Inv m) (href : Str) :
    Inv (m.read_text href).1 := by
  unfold Manifest.read_text
  rcases ho : m.mopen href (str "r") with ⟨m1, e1⟩
  have hm1 : Inv m1 := by
    have h := inv_mopen m hm href (str "r")
    rw [ho] at h
    exact h
  cases e1 with
  | error e => exact hm1
  | ok h =>
    split
    · next m2 e2 heq => exact absurd heq (by simp)
    · next m2 h2 heq =>
      simp only [Prod.mk.injEq] at heq
      obtain ⟨rfl, -⟩ := heq
      split
      · exact hm1
      · split <;> exact hm1

/-- `Manifest.write_text` preserves the invariant. -/
theorem inv_write_text (m : Manifest) (hm : Inv m) (href : Str) (text : Str) :
    Inv (m.write_text href text).1 := by
  unfold Manifest.write_text
  rcases ho : m.mopen href (str "w") with ⟨m1, e1⟩
  have hm1 : Inv m1 := by
    have h := inv_mopen m hm href (str "w")
    rw [ho] at h
    exact h
  cases e1 with
  | error e => exact hm1
  | ok h => exact hm1

/-- One resource's `try` body in `remap_links` preserves the invariant. -/
theorem inv_remapItem (m : Manifest) (hm : Inv m) (pm : PathMap)
    (pats : Patterns) (eid : Nat) : Inv (remapItem m pm pats eid).1 := by
  unfold remapItem
  split
  · exact hm
  next el heq =>
    dsimp only
    rcases hr : m.read_text (punquote el.attrHref) with ⟨m1, e1⟩
    have hm1 : Inv m1 := by
      have h := inv_read_text m hm (punquote el.attrHref)
      rw [hr] at h
      exact h
    cases e1 with
    | error e => exact hm1
    | ok text =>
      dsimp only
      split
      · rcases hw : m1.write_text (punquote el.attrHref)
            (apply_repl_iter text (itemRepls pats text pm (dirname (punquote el.attrHref))))
          with ⟨m2, e2⟩
        have hm2 : Inv m2 := by
          have h := inv_write_text m1 hm1 (punquote el.attrHref)
            (apply_repl_iter text (itemRepls pats text pm (dirname (punquote el.attrHref))))
          rw [hw] at h
          exact h
        cases e2 with
        | error e => exact hm2
        | ok n => exact hm2
      · exact hm1

/-- `remap_links` preserves the invariant: it only ever reads and rewrites
resource contents. -/
theorem inv_remap_links (m : Manifest) (hm : Inv m) (pm : PathMap)
    (lps : List ((Str → Bool) × Patterns)) : Inv (remap_links m pm lps).1 := by
  unfold remap_links
  refine foldl_preserve (fun acc : Manifest × List Str => Inv acc.1) _ ?_ lps (m, []) hm
  intro acc pp hacc
  dsimp only
  refine foldl_preserve (fun acc2 : Manifest × List Str => Inv acc2.1) _ ?_ _ acc hacc
  intro acc2 eid hacc2
  dsimp only
  exact inv_remapItem acc2.1 hacc2 pm pp.2 eid

/-- The common body of `Manifest.rename` preserves the invariant, given an
invariant-preserving repair pass and a source-consistent item argument. -/
theorem inv_renameCore (remap : Manifest → Str → Str → Manifest × List Str)
    (hremap : ∀ mm h d, Inv mm → Inv (remap mm h d).1)
    (m : Manifest) (hm : Inv m) (itemEid : Option Nat) (href dest : Str)
    (repair : Bool)
    (hit : ∀ e, itemEid = some e → ∀ i, alGet m.hrefToId href = some i →
      alGet m.reg i = some e) :
    Inv (Manifest.renameCore remap m itemEid href dest repair).1 := by
  unfold Manifest.renameCore
  split
  · exact hm
  split
  · exact hm
  next h1 h2 =>
    have hdest : alGet m.hrefToId dest = none := by
      rw [not_not] at h2
      exact Option.isNone_iff_eq_none.mp h2
    rcases hrr : m.renameRaw itemEid href dest with ⟨m1, e1⟩
    have hm1 : Inv m1 := by
      have h := inv_renameRaw m hm itemEid href dest hdest hit
      rw [hrr] at h
      exact h
    cases e1 with
    | error e => exact hm1
    | ok u =>
      dsimp only
      split
      · exact hremap m1 href dest hm1
      · exact hm1

/-- `Manifest.rename` (string form) preserves the invariant, whether it
returns or raises. -/
theorem inv_rename (m : Manifest) (hm : Inv m) (href0 dest0 : Str)
    (repair : Bool) : Inv (m.rename href0 dest0 repair).1 := by
  unfold Manifest.rename
  dsimp only
  split
  · exact hm
  split
  · exact hm
  exact inv_renameCore _
    (fun mm h d hmm => inv_remap_links mm hmm (.single h d) LINK_PATTERNS)
    m hm none _ _ repair (fun e he => Option.noConfusion he)

/-- `Manifest.rename` on a registered item (as `batch_rename` calls it)
preserves the invariant. -/
theorem inv_renameItem (m : Manifest) (hm : Inv m) (id : Str) (dest0 : Str)
    (repair : Bool) : Inv (m.renameItem id dest0 repair).1 := by
  unfold Manifest.renameItem
  cases hr : alGet m.reg id with
  | none => exact hm
  | some eid =>
    obtain ⟨el2, hel2, he1, he2, hgq⟩ :=
      hm.2.2.2.2.2.2.1 _ (alGet_some_mem hr)
    dsimp only at he1 he2 hgq
    have hfind : m.root.find? (·.eid = eid) = some el2 := by
      rw [← he1]
      exact find_eid_unique m.root hm.2.2.2.2.1 hel2
    split
    · next heq0 => exact Option.noConfusion heq0
    next eid2 heq0 =>
      cases Option.some.inj heq0
      rw [hfind]
      split
      · next heq => exact Option.noConfusion heq
      · next el heq =>
        have hee := Option.some.inj heq
        subst hee
        dsimp only
        split
        · exact hm
        · refine inv_renameCore _
            (fun mm h d hmm => inv_remap_links mm hmm (.single h d) LINK_PATTERNS)
            m hm (some eid) _ _ repair ?_
          intro e he i hi
          cases Option.some.inj he
          rw [hgq] at hi
          cases Option.some.inj hi
          exact hr

/-- One step of the `batch_rename` fold preserves the invariant. -/
theorem inv_batch_step (mapper : Str → Str) (pred : Str → Bool)
    (acc : Manifest × (List (Str × Str) × List (Str × Err))) (id : Str)
    (hacc : Inv acc.1) :
    Inv ((match alGet acc.1.reg id with
      | none => acc
      | some eid =>
        match acc.1.root.find? (fun x : Element => x.eid = eid) with
        | none => acc
        | some el =>
          let href := punquote el.attrHref
          if pred href then
            match acc.1.renameItem id (mapper href) false with
            | (m1, .ok r) =>
              if r.1.1 = r.1.2 then (m1, acc.2)
              else (m1, (acc.2.1 ++ [(r.1.1, r.1.2)], acc.2.2))
            | (m1, .error e) => (m1, (acc.2.1, acc.2.2 ++ [(href, e)]))
          else acc).1) := by
  split
  · exact hacc
  split
  · exact hacc
  next el heq2 =>
    dsimp only
    split
    · rcases hri : acc.1.renameItem id (mapper (punquote el.attrHref)) false
        with ⟨m1, e1⟩
      have hm1 : Inv m1 := by
        have h := inv_renameItem acc.1 hacc id (mapper (punquote el.attrHref)) false
        rw [hri] at h
        exact h
      cases e1 with
      | ok r =>
        dsimp only
        split
        · exact hm1
        · exact hm1
      | error e => exact hm1
    · exact hacc

/-- `Manifest.batch_rename` preserves the invariant. -/
theorem inv_batch_rename (m : Manifest) (hm : Inv m) (mapper : Str → Str)
    (pred : Str → Bool) (repair : Bool) :
    Inv (m.batch_rename mapper pred repair).1 := by
  unfold Manifest.batch_rename
  dsimp only
  split
  · refine inv_remap_links _ ?_ _ _
    refine foldl_preserve
      (fun acc : Manifest × (List (Str × Str) × List (Str × Err)) => Inv acc.1) _ ?_ _ _ hm
    intro s a hs
    exact inv_batch_step mapper pred s a hs
  · refine foldl_preserve
      (fun acc : Manifest × (List (Str × Str) × List (Str × Err)) => Inv acc.1) _ ?_ _ _ hm
    intro s a hs
    exact inv_batch_step mapper pred s a hs

/-- `Manifest.replace` preserves the invariant: the occupied target is fully
popped before `_rename` moves the source onto the now-free path. -/
theorem inv_replace (m : Manifest) (hm : Inv m) (href0 dest0 : Str) :
    Inv (m.replace href0 dest0).1 := by
  unfold Manifest.replace
  dsimp only
  split
  · exact hm
  split
  · exact hm
  split
  · exact hm
  split
  · exact hm
  cases hdid : alGet m.hrefToId (stripChar '/' dest0) with
  | none =>
    show Inv (match m.renameRaw none (stripChar '/' href0) (stripChar '/' dest0) with
      | (m2, Except.error e) => (m2, Except.error e)
      | (m2, Except.ok u) => (m2, Except.ok ())).1
    rcases hrr : m.renameRaw none (stripChar '/' href0) (stripChar '/' dest0)
      with ⟨m2, e2⟩
    have hm2 : Inv m2 := by
      have h := inv_renameRaw m hm none (stripChar '/' href0) (stripChar '/' dest0)
        hdid (fun e he => nomatch he)
      rw [hrr] at h
      exact h
    cases e2 with
    | error e => exact hm2
    | ok u => exact hm2
  | some did =>
    obtain ⟨el, hel, hge, hha⟩ := hm.2.2.2.2.2.1 _ (alGet_some_mem hdid)
    dsimp only at hge hha
    show Inv (match (match m.pop did false with
        | (m1, Except.error e) => (m1, Except.error e)
        | (m1, Except.ok a) => (m1, Except.ok ())) with
      | (m1, Except.error e) => (m1, Except.error e)
      | (m1, Except.ok u) =>
        match m1.renameRaw none (stripChar '/' href0) (stripChar '/' dest0) with
        | (m2, Except.error e) => (m2, Except.error e)
        | (m2, Except.ok u) => (m2, Except.ok ())).1
    rcases hp : m.pop did false with ⟨m1, e1⟩
    have hm1 : Inv m1 := by
      have h := inv_pop m hm did false
      rw [hp] at h
      exact h
    cases e1 with
    | error e => exact hm1
    | ok u =>
      show Inv (match m1.renameRaw none (stripChar '/' href0) (stripChar '/' dest0) with
        | (m2, Except.error e) => (m2, Except.error e)
        | (m2, Except.ok u) => (m2, Except.ok ())).1
      have hdest1 : alGet m1.hrefToId (stripChar '/' dest0) = none := by
        obtain ⟨href2, hh1, hh2⟩ := pop_spec m hm did el.eid hge
        rw [hp] at hh2
        dsimp only at hh2
        have he3 : href2 = stripChar '/' dest0 := href_unique m hm hh1 hdid
        subst he3
        rw [hh2]
        exact alGet_alErase_self _ hm.2.2.1
      rcases hrr : m1.renameRaw none (stripChar '/' href0) (stripChar '/' dest0)
        with ⟨m2, e2⟩
      have hm2 : Inv m2 := by
        have h := inv_renameRaw m1 hm1 none (stripChar '/' href0) (stripChar '/' dest0)
          hdest1 (fun e he => nomatch he)
        rw [hrr] at h
        exact h
      cases e2 with
      | error e => exact hm2
      | ok u2 => exact hm2
/-- Under the invariant no two live `<item>` elements carry the same
(unquoted) href path. -/
theorem no_shared_path (m : Manifest) (hm : Inv m) {el1 el2 : Element}
    (h1 : el1 ∈ m.root) (h2 : el2 ∈ m.root)
    (he : punquote el1.attrHref = punquote el2.attrHref) : el1 = el2 := by
  obtain ⟨A1, A2, A3, A4, A5, B1, B2, B3, B4, C1e, C2e⟩ := hm
  have hq1 := B3 el1 h1
  have hq2 := B3 el2 h2
  obtain ⟨el1w, hel1w, he1w, hat1w, hg1w⟩ := B2 (el1.attrId, el1.eid) (alGet_some_mem hq1)
  obtain ⟨el2w, hel2w, he2w, hat2w, hg2w⟩ := B2 (el2.attrId, el2.eid) (alGet_some_mem hq2)
  dsimp only at he1w hat1w hg1w he2w hat2w hg2w
  have hee1 : el1w = el1 := by
    apply mem_nodup_map_eq A5 hel1w h1
    rw [he1w]
  have hee2 : el2w = el2 := by
    apply mem_nodup_map_eq A5 hel2w h2
    rw [he2w]
  subst hee1
  subst hee2
  rw [he] at hg1w
  rw [hg2w] at hg1w
  have hid := Option.some.inj hg1w
  rw [hid] at hq2
  rw [hq1] at hq2
  exact mem_nodup_map_eq A5 h1 h2 (Option.some.inj hq2)

/-- A concrete one-resource manifest used as evaluation witness. -/
def mWit : Manifest :=
  { root := [⟨0, str "ia", pquote (str "a.xhtml"), str "application/xhtml+xml"⟩],
    reg := [(str "ia", 0)],
    hrefToId := [(str "a.xhtml", str "ia")],
    hrefToFile := [(str "a.xhtml", some ⟨.work (str "w0"), ALL_MODES⟩)],
    sto := ⟨[(str "w0", [104, 105])], [], []⟩,
    uuidCtr := 0,
    eidCtr := 1,
    genId := none }

/-- C1: on any manifest whose three indices are mutually consistent (`Inv`),
each of the seven structural operations — `add`, `rename`, `batch_rename`,
`replace`, `remove`, `pop` and `open` — leaves them mutually consistent in
the state at exit, for normal returns and raises alike (the first component
of each result is the manifest state at the return or raise point); in
particular after any `batch_rename` no two live resources share one path. -/
theorem C1_structural_ops_preserve_index_consistency (m : Manifest) (hm : Inv m) :
    (∀ href0 src id? mt?, Inv (m.add href0 src id? mt?).1) ∧
    (∀ href0 dest0 repair, Inv (m.rename href0 dest0 repair).1) ∧
    (∀ mapper pred repair, Inv (m.batch_rename mapper pred repair).1) ∧
    (∀ href0 dest0, Inv (m.replace href0 dest0).1) ∧
    (∀ href0, Inv (m.remove href0).1) ∧
    (∀ id hasDefault, Inv (m.pop id hasDefault).1) ∧
    (∀ href0 mode, Inv (m.mopen href0 mode).1) ∧
    (∀ mapper pred repair el1 el2,
      el1 ∈ (m.batch_rename mapper pred repair).1.root →
      el2 ∈ (m.batch_rename mapper pred repair).1.root →
      punquote el1.attrHref = punquote el2.attrHref → el1 = el2) :=
  ⟨fun href0 src id? mt? => inv_add m hm href0 src id? mt?,
   fun href0 dest0 repair => inv_rename m hm href0 dest0 repair,
   fun mapper pred repair => inv_batch_rename m hm mapper pred repair,
   fun href0 dest0 => inv_replace m hm href0 dest0,
   fun href0 => inv_remove m hm href0,
   fun id hasDefault => inv_pop m hm id hasDefault,
   fun href0 mode => inv_mopen m hm href0 mode,
   fun mapper pred repair _el1 _el2 h1 h2 he =>
     no_shared_path _ (inv_batch_rename m hm mapper pred repair) h1 h2 he⟩

/-- Witness for C1 at the concrete manifest `mWit`. -/
theorem C1_structural_ops_preserve_index_consistency_witness :
    Inv mWit ∧ Inv (mWit.remove (str "a.xhtml")).1 :=
  ⟨by unfold Inv; decide,
   (C1_structural_ops_preserve_index_consistency mWit
     (by unfold Inv; decide)).2.2.2.2.1 (str "a.xhtml")⟩

/-! ### Claim C2: writing to an archive-backed resource -/

/-- The scratch storage after `open(href, "wb")` truncation and a write. -/
def writtenSto (st : Sto) (uid : Str) (data : Bytes) : Sto :=
  {st with workfs := alSet (alSet st.workfs uid []) uid data}

/-- `open(href, "wb")` on a registered archive-backed resource: the
capability check fails, the `w` branch materializes a fresh scratch handle,
re-points `_href_to_file`, and opens the scratch file truncating. -/
theorem mopen_wb_archive (m : Manifest) (href id p : Str)
    (hs : stripChar '/' href = href) (hne : ¬ href = [])
    (hreg : alGet m.hrefToId href = some id)
    (hfl : alGet m.hrefToFile href = some (some ⟨.archive p, ['r']⟩)) :
    m.mopen href (str "wb")
      = ({m with
            uuidCtr := m.uuidCtr + 1,
            hrefToFile := alSet m.hrefToFile href
              (some ⟨.work (uuidStr m.uuidCtr), ALL_MODES⟩),
            sto := {m.sto with workfs := alSet m.sto.workfs (uuidStr m.uuidCtr) []}},
         .ok ⟨.work (uuidStr m.uuidCtr), ['w'], 0⟩) := by
  unfold Manifest.mopen Manifest.finalOpen
  dsimp only
  simp only [hs]
  rw [if_neg (show ¬ ¬ OPEN_MODES_mem (str "wb") = true by decide)]
  rw [if_neg hne]
  rw [hreg]
  simp only [Option.join, Option.some_bind, id_eq, hfl]
  rw [if_neg (show ¬ List.contains (str "wb") 'x' = true by decide)]
  have hck : File.check_open_mode ⟨Backing.archive p, ['r']⟩ (str "wb") = false := rfl
  rw [hck]
  rw [if_neg (show ¬ false = true by decide)]
  rw [if_pos (show List.contains (str "wb") 'w' = true by decide)]
  rfl

/-- `open(href, "rb")` on a registered scratch-backed resource whose scratch
file exists: a plain read-only open of the existing handle. -/
theorem mopen_rb_work (m : Manifest) (href uid id : Str) (bs : Bytes)
    (hs : stripChar '/' href = href) (hne : ¬ href = [])
    (hreg : alGet m.hrefToId href = some id)
    (hfl : alGet m.hrefToFile href = some (some ⟨.work uid, ALL_MODES⟩))
    (hws : alGet m.sto.workfs uid = some bs) :
    m.mopen href (str "rb")
      = ({m with uuidCtr := m.uuidCtr + 1}, .ok ⟨.work uid, ['r'], 0⟩) := by
  unfold Manifest.mopen Manifest.finalOpen File.openIO backendOpen
  dsimp only
  simp only [hs]
  rw [if_neg (show ¬ ¬ OPEN_MODES_mem (str "rb") = true by decide)]
  rw [if_neg hne]
  rw [hreg]
  simp only [Option.join, Option.some_bind, id_eq, hfl]
  rw [if_neg (show ¬ List.contains (str "rb") 'x' = true by decide)]
  have hck : File.check_open_mode ⟨Backing.work uid, ALL_MODES⟩ (str "rb") = true := rfl
  rw [hck]
  rw [if_pos rfl]
  simp only [hws]
  rfl

/-- C2 (amended): writing to a registered archive-backed resource with the
truncating write mode (`write` = `open(href, "wb")` + `write(data)`) leaves
the original archive bytes untouched, succeeds, re-points the resource's
`_href_to_file` slot to a fresh scratch (work) handle, and a subsequent read
returns exactly the written bytes.  (For the non-truncating write-intent
modes such as `"ab"` the read-back is not the written bytes alone — see the
counterexample.) -/
theorem C2_archive_backed_write (m : Manifest) (href id p : Str) (data : Bytes)
    (hs : stripChar '/' href = href) (hne : ¬ href = [])
    (hreg : alGet m.hrefToId href = some id)
    (hfl : alGet m.hrefToFile href = some (some ⟨.archive p, ['r']⟩)) :
    (m.mwrite href data).1.sto.archive = m.sto.archive ∧
    (m.mwrite href data).2 = .ok data.length ∧
    ((m.mwrite href data).1.mread href).2 = .ok data ∧
    alGet (m.mwrite href data).1.hrefToFile href
      = some (some ⟨.work (uuidStr m.uuidCtr), ALL_MODES⟩) := by
  have e1 := mopen_wb_archive m href id p hs hne hreg hfl
  have e2 : m.mwrite href data
      = ({m with
            uuidCtr := m.uuidCtr + 1,
            hrefToFile := alSet m.hrefToFile href
              (some ⟨.work (uuidStr m.uuidCtr), ALL_MODES⟩),
            sto := writtenSto m.sto (uuidStr m.uuidCtr) data},
         .ok data.length) := by
    unfold Manifest.mwrite Handle.write writtenSto
    rw [e1]
    simp only [alGet_alSet_self, Option.getD_some, List.take_nil, List.nil_append,
      List.drop_nil, List.append_nil]
  refine ⟨?_, ?_, ?_, ?_⟩
  · rw [e2]
    rfl
  · rw [e2]
  · rw [e2]
    have e3 := mopen_rb_work
      ({m with
          uuidCtr := m.uuidCtr + 1,
          hrefToFile := alSet m.hrefToFile href
            (some ⟨.work (uuidStr m.uuidCtr), ALL_MODES⟩),
          sto := writtenSto m.sto (uuidStr m.uuidCtr) data})
      href (uuidStr m.uuidCtr) id data hs hne hreg
      (alGet_alSet_self _ _ _) (alGet_alSet_self _ _ _)
    unfold Manifest.mread Handle.readAll
    rw [e3]
    unfold writtenSto
    simp only [alGet_alSet_self, List.drop_zero]
  · rw [e2]
    exact alGet_alSet_self _ _ _

/-- A concrete archive-backed manifest: one resource `a.css` whose handle
reads the original archive entry `p` holding the bytes `[104, 105]`. -/
def mArchW : Manifest :=
  { root := [⟨0, str "ia", pquote (str "a.css"), str "text/css"⟩],
    reg := [(str "ia", 0)],
    hrefToId := [(str "a.css", str "ia")],
    hrefToFile := [(str "a.css", some ⟨.archive (str "p"), ['r']⟩)],
    sto := ⟨[], [(str "p", [104, 105])], []⟩,
    uuidCtr := 0,
    eidCtr := 1,
    genId := none }

/-- The manifest state after `open("a.css", "ab")` and an appending
`write([33])` through the returned handle. -/
def mArchAfterAppend : Manifest :=
  {(mArchW.mopen (str "a.css") (str "ab")).1 with
    sto := Handle.write ⟨.work (uuidStr 0), ['a'], 2⟩ [33]
        (mArchW.mopen (str "a.css") (str "ab")).1.sto}

/-- C2 counterexample: with the write-intent append mode `"ab"` the claimed
"subsequent read returns exactly the newly written bytes" fails — the open
materializes a copy of the archive bytes, the write appends, and the read
returns the old bytes followed by the new ones. -/
theorem C2_append_mode_counterexample :
    (mArchW.mopen (str "a.css") (str "ab")).2
        = .ok ⟨.work (uuidStr 0), ['a'], 2⟩ ∧
    (mArchAfterAppend.mread (str "a.css")).2 = .ok [104, 105, 33] ∧
    ¬ (mArchAfterAppend.mread (str "a.css")).2 = .ok [33] := by
  refine ⟨by decide, by decide, by decide⟩

/-- Witness for C2 at the concrete archive-backed manifest. -/
theorem C2_archive_backed_write_witness :
    alGet mArchW.hrefToFile (str "a.css")
        = some (some ⟨.archive (str "p"), ['r']⟩) ∧
    (mArchW.mwrite (str "a.css") [33]).1.sto.archive = mArchW.sto.archive ∧
    ((mArchW.mwrite (str "a.css") [33]).1.mread (str "a.css")).2 = .ok [33] :=
  ⟨by decide,
   (C2_archive_backed_write mArchW (str "a.css") (str "ia") (str "p") [33]
      (by decide) (by decide) (by decide) (by decide)).1,
   (C2_archive_backed_write mArchW (str "a.css") (str "ia") (str "p") [33]
      (by decide) (by decide) (by decide) (by decide)).2.2.1⟩

/-! ### Claim C3: what `remap_links` reports -/

/-- A manifest with one stylesheet whose text contains no references. -/
def mCss : Manifest :=
  { root := [⟨0, str "ic", pquote (str "s.css"), str "text/css"⟩],
    reg := [(str "ic", 0)],
    hrefToId := [(str "s.css", str "ic")],
    hrefToFile := [(str "s.css", some ⟨.work (str "w0"), ALL_MODES⟩)],
    sto := ⟨[(str "w0", [120])], [], []⟩,
    uuidCtr := 0,
    eidCtr := 1,
    genId := none }

/-- C3 (amended): the `try` body of `remap_links` catches a per-resource read
failure — that resource is skipped and reported as unchanged, the pass
continues from the state at the failure point — but a resource scanned
without error is reported in the returned collection whether or not anything
was rewritten: with an empty replacement list the body performs no write and
still reports the resource's path. -/
theorem C3_remap_skips_errors_but_reports_unchanged
    (m m1 : Manifest) (pm : PathMap) (pats : Patterns) (eid : Nat) (el : Element)
    (hfind : m.root.find? (fun x : Element => x.eid = eid) = some el) :
    (∀ e, m.read_text (punquote el.attrHref) = (m1, .error e) →
      remapItem m pm pats eid = (m1, none)) ∧
    (∀ text, m.read_text (punquote el.attrHref) = (m1, .ok text) →
      itemRepls pats text pm (dirname (punquote el.attrHref)) = [] →
      remapItem m pm pats eid = (m1, some (punquote el.attrHref))) := by
  constructor
  · intro e hread
    unfold remapItem
    simp only [hfind]
    rw [hread]
  · intro text hread hrep
    unfold remapItem
    simp only [hfind]
    rw [hread]
    simp only [hrep]
    simp

/-- C3 counterexample: running the full default remap over a manifest whose
single stylesheet contains no rewritable reference returns that resource's
path even though nothing was changed (the storage is untouched), refuting
"the return value is exactly the collection of paths of the resources it
successfully changed". -/
theorem C3_unchanged_resource_reported_counterexample :
    (remapLinksD mCss (PathMap.single (str "a") (str "b"))).2 = [str "s.css"] ∧
    (remapLinksD mCss (PathMap.single (str "a") (str "b"))).1.sto = mCss.sto := by
  exact ⟨by rfl, by rfl⟩

/-- Witness for C3 on the concrete stylesheet manifest. -/
theorem C3_remap_skips_errors_but_reports_unchanged_witness :
    mCss.root.find? (fun x : Element => x.eid = 0)
        = some ⟨0, str "ic", pquote (str "s.css"), str "text/css"⟩ ∧
    remapItem mCss (PathMap.single (str "a") (str "b"))
        (Patterns.chain [cssUrlFinditer]) 0
      = ({mCss with uuidCtr := 1}, some (punquote (pquote (str "s.css")))) :=
  ⟨by rfl,
   (C3_remap_skips_errors_but_reports_unchanged mCss {mCss with uuidCtr := 1}
      (PathMap.single (str "a") (str "b")) (Patterns.chain [cssUrlFinditer]) 0
      ⟨0, str "ic", pquote (str "s.css"), str "text/css"⟩ (by rfl)).2
    (str "x") (by rfl) (by rfl)⟩

/-! ### Claim C4: packing with a failing handle -/

/-- Two resources; the second one's scratch file was never created, so its
handle's `open` raises at packing time. -/
def mPack : Manifest :=
  { root := [⟨0, str "ia", pquote (str "a.css"), str "text/css"⟩,
             ⟨1, str "ib", pquote (str "b.css"), str "text/css"⟩],
    reg := [(str "ia", 0), (str "ib", 1)],
    hrefToId := [(str "a.css", str "ia"), (str "b.css", str "ib")],
    hrefToFile := [(str "a.css", some ⟨.work (str "w0"), ALL_MODES⟩),
                   (str "b.css", some ⟨.work (str "w1"), ALL_MODES⟩)],
    sto := ⟨[(str "w0", [120])], [], []⟩,
    uuidCtr := 0,
    eidCtr := 2,
    genId := none }

def ePack : Epub := ⟨mPack, str "OEBPS", str "package.opf"⟩

/-- C4: `write_oebps` never mutates the live object — pruning happens on the
serialization copy only — and packing 2 resources where one handle raises on
open yields the other resource's bytes, a 1-element pruned item list with no
entry for the dropped resource, and one recorded warning. -/
theorem C4_pack_excludes_failing_resource :
    (∀ e : Epub, (write_oebps e).1 = e) ∧
    (write_oebps ePack).2
      = .ok ([(joinpath2 (str "OEBPS") (str "a.css"), [120])],
          [⟨0, str "ia", pquote (str "a.css"), str "text/css"⟩],
          [.cantOpen (str "b.css")]) := by
  constructor
  · intro e
    unfold write_oebps
    dsimp only
    split <;> rfl
  · decide

/-! ### Claim C5: rename round trip -/

/-- The manifest state after a successful `_rename` from `a` to `b` moving
item id `id` / element identity `eid` and handle slot `v`. -/
def renamedState (m : Manifest) (a b id : Str) (eid : Nat) (v : Option File) :
    Manifest :=
  {m with
    hrefToId := alSet (alErase m.hrefToId a) b id,
    root := m.root.map (fun el' =>
      if el'.eid = eid then {el' with attrHref := pquote b} else el'),
    hrefToFile := alSet (alErase m.hrefToFile a) b v}

/-- The success equation of `Manifest._rename` with no item argument. -/
theorem renameRaw_eq (m : Manifest) (href dest id : Str) (eid : Nat)
    (hid : alGet m.hrefToId href = some id)
    (hge : alGet m.reg id = some eid) :
    m.renameRaw none href dest
      = (renamedState m href dest id eid ((alGet m.hrefToFile href).join), .ok ()) := by
  unfold Manifest.renameRaw renamedState
  dsimp only
  simp only [hid, hge]

/-- The success equation of `Manifest.rename` (strings, no repair) when the
source is registered and the target path is free. -/
theorem rename_eq (m : Manifest) (a b id : Str) (eid : Nat)
    (hsa : stripChar '/' a = a) (hsb : stripChar '/' b = b)
    (hna : ¬ a = []) (hnb : ¬ b = []) (hab : ¬ a = b)
    (hida : alGet m.hrefToId a = some id)
    (hidb : alGet m.hrefToId b = none)
    (hge : alGet m.reg id = some eid) :
    m.rename a b false
      = (renamedState m a b id eid ((alGet m.hrefToFile a).join), .ok ((a, b), none)) := by
  unfold Manifest.rename Manifest.renameCore
  dsimp only
  simp only [hsa, hsb]
  rw [if_neg hna, if_neg hnb, if_neg hab]
  rw [hidb]
  rw [if_neg (show ¬ ¬ (none : Option Str).isNone = true by decide)]
  rw [renameRaw_eq m a b id eid hida hge]
  rfl

/-- C5: `rename(a, b)` then `rename(b, a)` (no repair) restores the original
state: both calls succeed, the descriptor tree, the registry and the storage
are unchanged, and both path indices map every path exactly as before — in
particular `a` is again addressed with its original id and the identical
handle, with no materialization having taken place. -/
theorem C5_rename_roundtrip (m : Manifest) (hm : Inv m) (a b id : Str)
    (w : Option File)
    (hsa : stripChar '/' a = a) (hsb : stripChar '/' b = b)
    (hna : ¬ a = []) (hnb : ¬ b = []) (hab : ¬ a = b)
    (hida : alGet m.hrefToId a = some id)
    (hidb : alGet m.hrefToId b = none)
    (hfa : alGet m.hrefToFile a = some w) :
    (m.rename a b false).2 = .ok ((a, b), none) ∧
    ((m.rename a b false).1.rename b a false).2 = .ok ((b, a), none) ∧
    ((m.rename a b false).1.rename b a false).1.root = m.root ∧
    ((m.rename a b false).1.rename b a false).1.reg = m.reg ∧
    ((m.rename a b false).1.rename b a false).1.sto = m.sto ∧
    (∀ h, alGet ((m.rename a b false).1.rename b a false).1.hrefToId h
        = alGet m.hrefToId h) ∧
    (∀ h, alGet ((m.rename a b false).1.rename b a false).1.hrefToFile h
        = alGet m.hrefToFile h) := by
  obtain ⟨A1, A2, A3, A4, A5, B1, B2, B3, B4, C1e, C2e⟩ := hm
  obtain ⟨el0, hel0, hge0, hha0⟩ := B1 (a, id) (alGet_some_mem hida)
  dsimp only at hge0 hha0
  have hfb : alGet m.hrefToFile b = none := by
    rw [alGet_eq_none_iff]
    intro p hp he
    have hB := B4 p hp
    rw [he, hidb] at hB
    simp at hB
  have e1 := rename_eq m a b id el0.eid hsa hsb hna hnb hab hida hidb hge0
  have hba : ¬ b = a := fun hh => hab hh.symm
  have hida2 : alGet (renamedState m a b id el0.eid ((alGet m.hrefToFile a).join)).hrefToId b
      = some id := alGet_alSet_self _ _ _
  have hidb2 : alGet (renamedState m a b id el0.eid ((alGet m.hrefToFile a).join)).hrefToId a
      = none := by
    show alGet (alSet (alErase m.hrefToId a) b id) a = none
    rw [alGet_alSet_ne _ _ _ _ hab, alGet_alErase_self _ A3]
  have hge2 : alGet (renamedState m a b id el0.eid ((alGet m.hrefToFile a).join)).reg id
      = some el0.eid := hge0
  have e2 := rename_eq (renamedState m a b id el0.eid ((alGet m.hrefToFile a).join))
    b a id el0.eid hsb hsa hnb hna hba hida2 hidb2 hge2
  have hv2 : (alGet (renamedState m a b id el0.eid
        ((alGet m.hrefToFile a).join)).hrefToFile b).join
      = (alGet m.hrefToFile a).join := by
    show (alGet (alSet (alErase m.hrefToFile a) b ((alGet m.hrefToFile a).join)) b).join
      = (alGet m.hrefToFile a).join
    rw [alGet_alSet_self]
    rfl
  rw [hv2] at e2
  have e12 : (m.rename a b false).1.rename b a false
      = (renamedState (renamedState m a b id el0.eid ((alGet m.hrefToFile a).join))
          b a id el0.eid ((alGet m.hrefToFile a).join), .ok ((b, a), none)) := by
    rw [e1]
    exact e2
  have hL2 : ((alSet (alErase m.hrefToId a) b id).map Prod.fst).Nodup :=
    nodup_alSet _ _ (nodup_alErase _ A3)
  have hF2 : ((alSet (alErase m.hrefToFile a) b
      ((alGet m.hrefToFile a).join)).map Prod.fst).Nodup :=
    nodup_alSet _ _ (nodup_alErase _ A4)
  refine ⟨?_, ?_, ?_, ?_, ?_, ?_, ?_⟩
  · rw [e1]
  · rw [e12]
  · rw [e12]
    show ((m.root.map (fun el' =>
        if el'.eid = el0.eid then {el' with attrHref := pquote b} else el')).map
          (fun el' =>
        if el'.eid = el0.eid then {el' with attrHref := pquote a} else el')) = m.root
    rw [List.map_map]
    have hcong : ∀ x ∈ m.root,
        ((fun el' => if el'.eid = el0.eid then {el' with attrHref := pquote a} else el') ∘
         (fun el' => if el'.eid = el0.eid then {el' with attrHref := pquote b} else el')) x
          = (fun y => y) x := by
      intro x hx
      by_cases hxe : x.eid = el0.eid
      · have hxel : x = el0 := mem_nodup_map_eq A5 hx hel0 hxe
        subst hxel
        have h1 : (fun el' =>
              if el'.eid = x.eid then ({el' with attrHref := pquote b} : Element) else el') x
            = {x with attrHref := pquote b} := by
          show (if x.eid = x.eid then ({x with attrHref := pquote b} : Element) else x)
            = {x with attrHref := pquote b}
          exact if_pos rfl
        have h2 : (fun el' =>
              if el'.eid = x.eid then ({el' with attrHref := pquote a} : Element) else el')
              ({x with attrHref := pquote b})
            = {x with attrHref := pquote a} := by
          show (if ({x with attrHref := pquote b} : Element).eid = x.eid
              then ({({x with attrHref := pquote b} : Element) with
                attrHref := pquote a} : Element)
              else ({x with attrHref := pquote b} : Element))
            = {x with attrHref := pquote a}
          exact if_pos rfl
        show (fun el' =>
            if el'.eid = x.eid then ({el' with attrHref := pquote a} : Element) else el')
            ((fun el' =>
              if el'.eid = x.eid then ({el' with attrHref := pquote b} : Element) else el') x)
          = x
        rw [h1, h2, ← hha0]
      · simp only [Function.comp_apply, if_neg hxe]
    rw [List.map_congr_left hcong]
    simp
  · rw [e12]
    rfl
  · rw [e12]
    rfl
  · intro h
    rw [e12]
    show alGet (alSet (alErase (alSet (alErase m.hrefToId a) b id) b) a id) h
      = alGet m.hrefToId h
    by_cases hha : h = a
    · subst hha
      rw [alGet_alSet_self, hida]
    · rw [alGet_alSet_ne _ _ _ _ hha]
      by_cases hhb : h = b
      · subst hhb
        rw [alGet_alErase_self _ hL2, hidb]
      · rw [alGet_alErase_ne _ _ _ hhb, alGet_alSet_ne _ _ _ _ hhb,
          alGet_alErase_ne _ _ _ hha]
  · intro h
    rw [e12]
    show alGet (alSet (alErase (alSet (alErase m.hrefToFile a) b
        ((alGet m.hrefToFile a).join)) b) a ((alGet m.hrefToFile a).join)) h
      = alGet m.hrefToFile h
    by_cases hha : h = a
    · subst hha
      rw [alGet_alSet_self, hfa]
      rfl
    · rw [alGet_alSet_ne _ _ _ _ hha]
      by_cases hhb : h = b
      · subst hhb
        rw [alGet_alErase_self _ hF2, hfb]
      · rw [alGet_alErase_ne _ _ _ hhb, alGet_alSet_ne _ _ _ _ hhb,
          alGet_alErase_ne _ _ _ hha]

/-- Witness for C5 on the concrete one-resource manifest. -/
theorem C5_rename_roundtrip_witness :
    Inv mWit ∧
    ((mWit.rename (str "a.xhtml") (str "b.xhtml") false).1.rename
        (str "b.xhtml") (str "a.xhtml") false).1.root = mWit.root :=
  ⟨by unfold Inv; decide,
   (C5_rename_roundtrip mWit (by unfold Inv; decide) (str "a.xhtml") (str "b.xhtml")
      (str "ia") (some ⟨.work (str "w0"), ALL_MODES⟩)
      (by decide) (by decide) (by decide) (by decide) (by decide)
      (by decide) (by decide) (by decide)).2.2.1⟩

/-! ### Claim C6: `remove` -/

/-- `file.remove()` only touches storage, never the indices or the tree. -/
theorem fileRemove_indices (m : Manifest) (fl : File) :
    (Manifest.fileRemove m fl).root = m.root ∧
    (Manifest.fileRemove m fl).reg = m.reg ∧
    (Manifest.fileRemove m fl).hrefToId = m.hrefToId ∧
    (Manifest.fileRemove m fl).hrefToFile = m.hrefToFile := by
  unfold Manifest.fileRemove
  rcases fl.backing with n | p | k <;> exact ⟨rfl, rfl, rfl, rfl⟩

/-- C6: `remove(path)` on a registered path succeeds and erases the path
from all three indices and its element from the tree; a scratch-backed
(write-capable) handle has its storage file unlinked, while an archive-backed
(read-only) handle triggers no storage deletion at all — the storage,
including the original archive, is left untouched. -/
theorem C6_remove_erases_and_unlinks (m : Manifest) (hm : Inv m) (href id : Str)
    (hs : stripChar '/' href = href) (hne : ¬ href = [])
    (hg : alGet m.hrefToId href = some id) :
    (m.remove href).2 = .ok () ∧
    alGet (m.remove href).1.hrefToId href = none ∧
    alGet (m.remove href).1.reg id = none ∧
    (∀ el ∈ (m.remove href).1.root, ¬ punquote el.attrHref = href) ∧
    (∀ uid, alGet m.hrefToFile href = some (some ⟨.work uid, ALL_MODES⟩) →
      (m.remove href).1.sto = {m.sto with workfs := alErase m.sto.workfs uid}) ∧
    (∀ p, alGet m.hrefToFile href = some (some ⟨.archive p, ['r']⟩) →
      (m.remove href).1.sto = m.sto) := by
  obtain ⟨A1, A2, A3, A4, A5, B1, B2, B3, B4, C1e, C2e⟩ := hm
  obtain ⟨el0, hel0, hgr, hattr⟩ := B1 (href, id) (alGet_some_mem hg)
  dsimp only at hgr hattr
  have hroot : ∀ el ∈ m.root.filter (fun el' => ¬ el'.eid = el0.eid),
      ¬ punquote el.attrHref = href := by
    intro el hel hcontra
    have hel2 := List.mem_filter.mp hel
    have hne2 : ¬ el.eid = el0.eid := by simpa using hel2.2
    have hq := B3 el hel2.1
    obtain ⟨el1, hel1, he1, he2, hgq⟩ := B2 (el.attrId, el.eid) (alGet_some_mem hq)
    dsimp only at he1 he2 hgq
    have hsame : el1 = el := mem_nodup_map_eq A5 hel1 hel2.1 he1
    subst hsame
    rw [hcontra, hg] at hgq
    have hid2 : id = el1.attrId := Option.some.inj hgq
    rw [← hid2] at hq
    rw [hgr] at hq
    exact hne2 (Option.some.inj hq).symm
  refine ⟨?_, ?_, ?_, ?_, ?_, ?_⟩
  · unfold Manifest.remove
    dsimp only
    simp only [hs]
    rw [if_neg hne]
    simp only [hg, hgr]
    split
    · split
      · rfl
      · rfl
    · rfl
  · unfold Manifest.remove
    dsimp only
    simp only [hs]
    rw [if_neg hne]
    simp only [hg, hgr]
    split
    · split
      · rw [(fileRemove_indices _ _).2.2.1]
        exact alGet_alErase_self _ A3
      · exact alGet_alErase_self _ A3
    · exact alGet_alErase_self _ A3
  · unfold Manifest.remove
    dsimp only
    simp only [hs]
    rw [if_neg hne]
    simp only [hg, hgr]
    split
    · split
      · rw [(fileRemove_indices _ _).2.1]
        exact alGet_alErase_self _ A1
      · exact alGet_alErase_self _ A1
    · exact alGet_alErase_self _ A1
  · unfold Manifest.remove
    dsimp only
    simp only [hs]
    rw [if_neg hne]
    simp only [hg, hgr]
    split
    · split
      · rw [(fileRemove_indices _ _).1]
        exact hroot
      · exact hroot
    · exact hroot
  · intro uid hfw
    unfold Manifest.remove Manifest.fileRemove
    dsimp only
    simp only [hs]
    rw [if_neg hne]
    simp only [hg, hgr, hfw, Option.join, Option.some_bind, id_eq]
    have hck : File.check_open_mode ⟨Backing.work uid, ALL_MODES⟩ ['w'] = true := rfl
    rw [hck, if_pos rfl]
  · intro p hfw
    unfold Manifest.remove
    dsimp only
    simp only [hs]
    rw [if_neg hne]
    simp only [hg, hgr, hfw, Option.join, Option.some_bind, id_eq]
    have hck : File.check_open_mode ⟨Backing.archive p, ['r']⟩ ['w'] = false := rfl
    rw [hck]
    rw [if_neg (show ¬ false = true by decide)]

/-- A two-backing manifest for the C6 witness: `a.css` scratch-backed with a
live scratch file, everything else as in `mArchW`. -/
def mRem : Manifest :=
  { root := [⟨0, str "ia", pquote (str "a.css"), str "text/css"⟩],
    reg := [(str "ia", 0)],
    hrefToId := [(str "a.css", str "ia")],
    hrefToFile := [(str "a.css", some ⟨.work (str "w0"), ALL_MODES⟩)],
    sto := ⟨[(str "w0", [120])], [(str "p", [1, 2])], []⟩,
    uuidCtr := 0,
    eidCtr := 1,
    genId := none }

/-- Witness for C6 at the scratch-backed manifest `mRem`. -/
theorem C6_remove_erases_and_unlinks_witness :
    Inv mRem ∧
    (mRem.remove (str "a.css")).1.sto
      = {mRem.sto with workfs := alErase mRem.sto.workfs (str "w0")} :=
  ⟨by unfold Inv; decide,
   (C6_remove_erases_and_unlinks mRem (by unfold Inv; decide) (str "a.css") (str "ia")
      (by decide) (by decide) (by decide)).2.2.2.2.1 (str "w0") (by decide)⟩

/-! ### Claim C7: `add` validation -/

/-- C7: `add` strips slashes and validates before mutating anything.  An
empty trimmed path is rejected; a registered trimmed path raises the
path-collision error (`FileExistsError`); a supplied id already in use
raises the id-collision error (`LookupError`); and in each failure no index
and no tree element has been touched. -/
theorem C7_add_validates_before_mutating (m : Manifest) (href0 : Str)
    (src : AddSource) (id : Str) (mt? : Option Str) :
    (stripChar '/' href0 = [] →
      m.add href0 src (some id) mt? = (m, .error .assertionError)) ∧
    (¬ stripChar '/' href0 = [] →
      ¬ (alGet m.hrefToId (stripChar '/' href0)).isNone = true →
      m.add href0 src (some id) mt? = (m, .error .fileExistsError)) ∧
    (¬ stripChar '/' href0 = [] →
      (alGet m.hrefToId (stripChar '/' href0)).isNone = true →
      ¬ (alGet m.reg id).isNone = true →
      (m.add href0 src (some id) mt?).2 = .error .lookupError ∧
      (m.add href0 src (some id) mt?).1.root = m.root ∧
      (m.add href0 src (some id) mt?).1.reg = m.reg ∧
      (m.add href0 src (some id) mt?).1.hrefToId = m.hrefToId ∧
      (m.add href0 src (some id) mt?).1.hrefToFile = m.hrefToFile) := by
  refine ⟨?_, ?_, ?_⟩
  · intro h
    unfold Manifest.add
    dsimp only
    rw [if_pos h]
  · intro h1 h2
    unfold Manifest.add
    dsimp only
    rw [if_neg h1, if_pos h2]
  · intro h1 h2 h3
    unfold Manifest.add
    dsimp only
    rw [if_neg h1, if_neg (not_not_intro h2)]
    rw [if_pos h3]
    exact ⟨rfl, rfl, rfl, rfl, rfl⟩

/-! ### Claim C8: reference resolution and rewriting -/

/-- Two XHTML resources; `Text/a.xhtml` references `b.xhtml` relatively and
`http://x/y` absolutely. -/
def mC8 : Manifest :=
  { root := [⟨0, str "ia", pquote (str "Text/a.xhtml"), str "application/xhtml+xml"⟩,
             ⟨1, str "ib", pquote (str "Text/b.xhtml"), str "application/xhtml+xml"⟩],
    reg := [(str "ia", 0), (str "ib", 1)],
    hrefToId := [(str "Text/a.xhtml", str "ia"), (str "Text/b.xhtml", str "ib")],
    hrefToFile := [(str "Text/a.xhtml", some ⟨.work (str "w0"), ALL_MODES⟩),
                   (str "Text/b.xhtml", some ⟨.work (str "w1"), ALL_MODES⟩)],
    sto := ⟨[(str "w0", utf8Encode (str "<x src=\"b.xhtml\"/><y src=\"http://x/y\"/>")),
             (str "w1", [])], [], []⟩,
    uuidCtr := 0,
    eidCtr := 2,
    genId := none }

/-- C8: a reference with a scheme or a network authority is never rewritten;
and in the concrete rename scenario, `rename("Text/b.xhtml",
"Text/sub/b.xhtml", repair := true)` rewrites the relative reference
`b.xhtml` inside `Text/a.xhtml` to `sub/b.xhtml` (resolved against and
re-expressed relative to `Text/`), reports `Text/a.xhtml`, and leaves the
absolute reference `http://x/y` untouched. -/
theorem C8_reference_rewrite_semantics :
    (∀ (mt : RMatch) (pm : PathMap) (basedir : Str),
      ¬ (urlsplit (punquote mt.text)).scheme = [] ∨
        ¬ (urlsplit (punquote mt.text)).netloc = [] →
      pathRepl1 pm basedir mt = none) ∧
    (mC8.rename (str "Text/b.xhtml") (str "Text/sub/b.xhtml") true).2
      = .ok ((str "Text/b.xhtml", str "Text/sub/b.xhtml"),
          some [str "Text/a.xhtml", str "Text/sub/b.xhtml"]) ∧
    alGet (mC8.rename (str "Text/b.xhtml") (str "Text/sub/b.xhtml") true).1.sto.workfs
        (str "w0")
      = some (utf8Encode (str "<x src=\"sub/b.xhtml\"/><y src=\"http://x/y\"/>")) := by
  refine ⟨?_, by decide, by decide⟩
  intro mt pm basedir h
  unfold pathRepl1
  dsimp only
  rw [if_pos h]

/-! ### Claim C9: glob semantics -/

/-- Every string splits into slash-separated runs, so the `**` fragment
`[^/]*(?:/[^/]*)*` accepts everything. -/
theorem rxMatch_allStar (s : Str) : rxMatch [Rx.allStar] s = true := by
  show (List.range (s.length + 1)).any (fun k => rxMatch [] (s.drop k)) = true
  rw [List.any_eq_true]
  refine ⟨s.length, List.mem_range.mpr (by omega), ?_⟩
  show (s.drop s.length).isEmpty = true
  rw [List.drop_length]
  rfl

/-- The `*` fragment `[^/]*` accepts exactly the slash-free strings. -/
theorem rxMatch_segStar (s : Str) :
    rxMatch [Rx.segStar] s = s.all (fun c => ¬ c = '/') := by
  show (List.range (s.length + 1)).any
      (fun k => ((s.take k).all (fun c => ¬ c = '/')) && rxMatch [] (s.drop k))
    = s.all (fun c => ¬ c = '/')
  rcases hall : s.all (fun c => ¬ c = '/') with _ | _
  · cases hany : (List.range (s.length + 1)).any
        (fun k => ((s.take k).all (fun c => ¬ c = '/')) && rxMatch [] (s.drop k)) with
    | false => rfl
    | true =>
      exfalso
      obtain ⟨k, hk, hkp⟩ := List.any_eq_true.mp hany
      rw [Bool.and_eq_true] at hkp
      obtain ⟨h1, h2⟩ := hkp
      have hdrop : s.drop k = [] := by
        cases hd : s.drop k with
        | nil => rfl
        | cons c t =>
          rw [hd] at h2
          exact absurd h2 (by simp [rxMatch])
      have hle : s.length ≤ k := by
        have hlen := congrArg List.length hdrop
        simp only [List.length_drop, List.length_nil] at hlen
        omega
      have htake : s.take k = s := List.take_of_length_le hle
      rw [htake] at h1
      rw [h1] at hall
      exact Bool.noConfusion hall
  · rw [List.any_eq_true]
    refine ⟨s.length, List.mem_range.mpr (by omega), ?_⟩
    rw [Bool.and_eq_true]
    constructor
    · rw [List.take_length]
      exact hall
    · show (s.drop s.length).isEmpty = true
      rw [List.drop_length]
      rfl

/-- Five registered paths at varying depths for the glob claims. -/
def mGlob : Manifest :=
  { root := [],
    reg := [(str "ia", 0), (str "ib", 1), (str "icx", 2), (str "ica", 3), (str "icb", 4)],
    hrefToId := [(str "Text/a.xhtml", str "ia"), (str "Text/sub/b.xhtml", str "ib"),
                 (str "c.xhtml", str "icx"), (str "a.css", str "ica"),
                 (str "sub/a.css", str "icb")],
    hrefToFile := [],
    sto := ⟨[], [], []⟩,
    uuidCtr := 0,
    eidCtr := 5,
    genId := none }

/-- C9 (amended): in the compiled anchored pattern `*` matches exactly one
path segment\'s worth of characters and `**` matches any run of segments, so
`glob("*.xhtml", dirname := "Text")` yields exactly the direct children of
`Text/`; but `glob("**/*.css")` requires a `/` before the final segment and
therefore yields the `.css` resources at depth at least one — not every
`.css` resource. -/
theorem C9_glob_star_semantics :
    (∀ s : Str, rxMatch [Rx.segStar] s = s.all (fun c => ¬ c = '/')) ∧
    (∀ s : Str, rxMatch [Rx.allStar] s = true) ∧
    mGlob.glob (str "*.xhtml") (str "Text") = [⟨str "ia", 0⟩] ∧
    mGlob.glob (str "**/*.css") [] = [⟨str "icb", 4⟩] :=
  ⟨rxMatch_segStar, rxMatch_allStar, by decide, by decide⟩

/-- C9 counterexample: the registered root-level resource `a.css` is a
`.css` resource (it is found by `glob("*.css")`) but `glob("**/*.css")`
does not return it — `**/` never matches an empty prefix. -/
theorem C9_root_css_missed_counterexample :
    alGet mGlob.hrefToId (str "a.css") = some (str "ica") ∧
    mGlob.glob (str "*.css") [] = [⟨str "ica", 3⟩] ∧
    (∀ r ∈ mGlob.glob (str "**/*.css") [], ¬ r.id = str "ica") := by
  refine ⟨by decide, by decide, by decide⟩

/-! ### Claim C10: rename onto itself -/

/-- C10: renaming a path onto itself is a silent no-op — the trimmed paths
coincide, so the call returns the pathpair with no repairs entry and the
manifest completely unchanged, even with `repair := true`, and no
`FileExistsError` is raised although the destination is occupied by the
resource itself. -/
theorem C10_rename_self_noop (m : Manifest) (p0 : Str) (repair : Bool)
    (hne : ¬ stripChar '/' p0 = []) :
    m.rename p0 p0 repair
      = (m, .ok ((stripChar '/' p0, stripChar '/' p0), none)) := by
  unfold Manifest.rename Manifest.renameCore
  dsimp only
  rw [if_neg hne, if_neg hne, if_pos rfl]

/-- Witness for C10: renaming `a.xhtml` onto itself with repair requested. -/
theorem C10_rename_self_noop_witness :
    mWit.rename (str "a.xhtml") (str "a.xhtml") true
      = (mWit, .ok ((stripChar '/' (str "a.xhtml"), stripChar '/' (str "a.xhtml")), none)) :=
  C10_rename_self_noop mWit (str "a.xhtml") true (by decide)

end Epub3
